import Mathlib

/-!
Verification of the ga4-campaign-automation repository.

The Python sources (src/qr_generator.py, src/report_generator.py,
src/ga4_setup.py) are shallowly embedded below.  Python strings are
modelled as `List Char` (`PyStr`); Python numbers as `ℚ`/`ℤ`/`ℕ`;
fallible Python code (code that can raise) returns `Option`/`Except`.
Library routines the sources call (hashlib.md5, urllib.parse, pandas
reductions, datetime comparisons) are modelled from their reference
behaviour; the control-character sanitization that very recent CPython
versions perform inside `urlsplit` is not modelled.
-/

/-- Python `str` is modelled as a list of unicode characters. -/
abbrev PyStr := List Char

/-- Helper: coerce a Lean string literal to the `PyStr` model. -/
def pys (s : String) : PyStr := s.toList

/-! ## UTF-8 encoding (Python `str.encode()`) -/

/-- UTF-8 encoding of one code point, as byte values (0..255).
Mirrors `bytes(ch, 'utf-8')`. -/
def utf8Char (c : Char) : List Nat :=
  if c.toNat < 0x80 then [c.toNat]
  else if c.toNat < 0x800 then
    [0xC0 + c.toNat / 64, 0x80 + c.toNat % 64]
  else if c.toNat < 0x10000 then
    [0xE0 + c.toNat / 4096, 0x80 + (c.toNat / 64) % 64, 0x80 + c.toNat % 64]
  else
    [0xF0 + c.toNat / 262144, 0x80 + (c.toNat / 4096) % 64,
     0x80 + (c.toNat / 64) % 64, 0x80 + c.toNat % 64]

/-- UTF-8 encoding of a whole string: Python `s.encode()`. -/
def utf8Str (s : PyStr) : List Nat := s.flatMap utf8Char

/-! ## MD5 (Python `hashlib.md5`)

Straight transcription of the MD5 algorithm (RFC 1321) over `ℕ`
with explicit reduction modulo `2 ^ 32`. -/

/-- The 64 MD5 sine-table constants. -/
def md5K : List Nat :=
  [0xd76aa478, 0xe8c7b756, 0x242070db, 0xc1bdceee,
   0xf57c0faf, 0x4787c62a, 0xa8304613, 0xfd469501,
   0x698098d8, 0x8b44f7af, 0xffff5bb1, 0x895cd7be,
   0x6b901122, 0xfd987193, 0xa679438e, 0x49b40821,
   0xf61e2562, 0xc040b340, 0x265e5a51, 0xe9b6c7aa,
   0xd62f105d, 0x02441453, 0xd8a1e681, 0xe7d3fbc8,
   0x21e1cde6, 0xc33707d6, 0xf4d50d87, 0x455a14ed,
   0xa9e3e905, 0xfcefa3f8, 0x676f02d9, 0x8d2a4c8a,
   0xfffa3942, 0x8771f681, 0x6d9d6122, 0xfde5380c,
   0xa4beea44, 0x4bdecfa9, 0xf6bb4b60, 0xbebfbc70,
   0x289b7ec6, 0xeaa127fa, 0xd4ef3085, 0x04881d05,
   0xd9d4d039, 0xe6db99e5, 0x1fa27cf8, 0xc4ac5665,
   0xf4292244, 0x432aff97, 0xab9423a7, 0xfc93a039,
   0x655b59c3, 0x8f0ccc92, 0xffeff47d, 0x85845dd1,
   0x6fa87e4f, 0xfe2ce6e0, 0xa3014314, 0x4e0811a1,
   0xf7537e82, 0xbd3af235, 0x2ad7d2bb, 0xeb86d391]

/-- The 64 MD5 per-operation left-rotation amounts. -/
def md5S : List Nat :=
  [7, 12, 17, 22, 7, 12, 17, 22, 7, 12, 17, 22, 7, 12, 17, 22,
   5,  9, 14, 20, 5,  9, 14, 20, 5,  9, 14, 20, 5,  9, 14, 20,
   4, 11, 16, 23, 4, 11, 16, 23, 4, 11, 16, 23, 4, 11, 16, 23,
   6, 10, 15, 21, 6, 10, 15, 21, 6, 10, 15, 21, 6, 10, 15, 21]

/-- 32-bit complement of a word already reduced below `2 ^ 32`. -/
def not32 (x : Nat) : Nat := 0xffffffff ^^^ x

/-- 32-bit left rotation. -/
def rotl32 (x s : Nat) : Nat :=
  (((x <<< s) % 4294967296) ||| (x >>> (32 - s)))

/-- Assemble a little-endian 32-bit word from four bytes. -/
def leWord (b0 b1 b2 b3 : Nat) : Nat :=
  b0 + b1 * 256 + b2 * 65536 + b3 * 16777216

/-- Split a byte list into little-endian 32-bit words (groups of 4). -/
def leWords : List Nat → List Nat
  | b0 :: b1 :: b2 :: b3 :: rest => leWord b0 b1 b2 b3 :: leWords rest
  | _ => []

/-- Four little-endian bytes of a 32-bit word. -/
def wordBytes (w : Nat) : List Nat :=
  [w % 256, (w / 256) % 256, (w / 65536) % 256, (w / 16777216) % 256]

/-- MD5 state: the four chaining words. -/
structure MD5State where
  a : Nat
  b : Nat
  c : Nat
  d : Nat
deriving DecidableEq

/-- One of the 64 MD5 operations, on message words `M`. -/
def md5Op (M : List Nat) (st : MD5State) (i : Nat) : MD5State :=
  let fg : Nat × Nat :=
    if i < 16 then ((st.b &&& st.c) ||| (not32 st.b &&& st.d), i)
    else if i < 32 then
      ((st.d &&& st.b) ||| (not32 st.d &&& st.c), (5 * i + 1) % 16)
    else if i < 48 then (st.b ^^^ st.c ^^^ st.d, (3 * i + 5) % 16)
    else (st.c ^^^ (st.b ||| not32 st.d), (7 * i) % 16)
  let f := (fg.1 + st.a + md5K.getD i 0 + M.getD fg.2 0) % 4294967296
  ⟨st.d, (st.b + rotl32 f (md5S.getD i 0)) % 4294967296, st.b, st.c⟩

/-- Process one 64-byte block. -/
def md5Block (st : MD5State) (block : List Nat) : MD5State :=
  let M := leWords block
  let r := (List.range 64).foldl (md5Op M) st
  ⟨(st.a + r.a) % 4294967296, (st.b + r.b) % 4294967296,
   (st.c + r.c) % 4294967296, (st.d + r.d) % 4294967296⟩

/-- Eight little-endian bytes of the 64-bit bit length
(`len * 8 mod 2 ^ 64`, low byte first). -/
def lenBytes (len : Nat) : List Nat :=
  (List.range 8).map (fun i => (len * 8 / 256 ^ i) % 256)

/-- MD5 padding: append `0x80`, zero bytes until the length is
56 mod 64, then the 64-bit little-endian bit length. -/
def md5Padded (msg : List Nat) : List Nat :=
  let len := msg.length
  let zeros := (119 - len % 64) % 64
  msg ++ 0x80 :: List.replicate zeros 0 ++ lenBytes len

/-- Split into 64-byte blocks (structurally, on a fuel bound). -/
def blocks64Go : Nat → List Nat → List (List Nat)
  | 0, _ => []
  | _, [] => []
  | fuel + 1, l => l.take 64 :: blocks64Go fuel (l.drop 64)

/-- Split into 64-byte blocks. -/
def blocks64 (l : List Nat) : List (List Nat) := blocks64Go l.length l

/-- The 16 digest bytes of a message. -/
def md5Bytes (msg : List Nat) : List Nat :=
  let init : MD5State := ⟨0x67452301, 0xefcdab89, 0x98badcfe, 0x10325476⟩
  let fin := (blocks64 (md5Padded msg)).foldl md5Block init
  wordBytes fin.a ++ wordBytes fin.b ++ wordBytes fin.c ++ wordBytes fin.d

/-- The sixteen lowercase hex digit characters. -/
def hexLower : List Char := pys "0123456789abcdef"

/-- One lowercase hex digit character. -/
def hexChar (n : Nat) : Char := hexLower.getD n '0'

/-- Two lowercase hex characters of one byte (`'%02x' % b`). -/
def byteHex (b : Nat) : List Char := [hexChar (b / 16), hexChar (b % 16)]

/-- Python `hashlib.md5(bs).hexdigest()`. -/
def md5Hexdigest (bs : List Nat) : PyStr :=
  (md5Bytes bs).flatMap byteHex

/-! ## The Campaign record (campaigns.yml entries) -/

/-- One entry of the `campaigns` list in campaigns.yml, with the fields
the sources read. -/
structure Campaign where
  name : PyStr
  location : PyStr
  start_date : PyStr
  end_date : PyStr
  budget : ℚ
  target_url : PyStr
deriving DecidableEq

/-- `QRCodeGenerator.generate_campaign_id` (qr_generator.py:33-37):
`hashlib.md5(f"{name}_{start_date}".encode()).hexdigest()[:8]`. -/
def qrGenerateCampaignId (c : Campaign) : PyStr :=
  (md5Hexdigest (utf8Str (c.name ++ '_' :: c.start_date))).take 8

/-- `ReportGenerator.generate_campaign_id` (report_generator.py:70-74),
the second, textually identical implementation of the derivation. -/
def reportGenerateCampaignId (c : Campaign) : PyStr :=
  (md5Hexdigest (utf8Str (c.name ++ '_' :: c.start_date))).take 8

/-- A concrete campaign used to instantiate hypotheses of proved claims. -/
def demoCampaign : Campaign where
  name := pys "Spring Sale"
  location := pys "Shibuya Station"
  start_date := pys "2024-03-01"
  end_date := pys "2024-03-31"
  budget := 50000
  target_url := pys "https://example.com/lp?ref=flyer"

/-- A second concrete campaign, agreeing with `demoCampaign` on `name`
and `start_date` only. -/
def demoCampaignVariant : Campaign where
  name := pys "Spring Sale"
  location := pys "Umeda"
  start_date := pys "2024-03-01"
  end_date := pys "2024-06-30"
  budget := 120000
  target_url := pys "https://example.com/other?x=1"

/-! ## Report aggregation (report_generator.py:130-184)

One row of the GA4 `run_report` response, after
`fetch_campaign_data` turned it into a DataFrame row.  The report
columns are string-valued in the response; `calculate_metrics`
coerces them with `pd.to_numeric(..., errors='coerce').fillna(0)`,
so each numeric cell is modelled as `Option ℚ`, `none` standing for
an unparseable cell (NaN after coercion). -/
structure GARow where
  sessions : Option ℚ
  totalUsers : Option ℚ
  newUsers : Option ℚ
  screenPageViews : Option ℚ
  averageSessionDuration : Option ℚ
  bounceRate : Option ℚ
  conversions : Option ℚ
deriving DecidableEq

/-- `pd.to_numeric(x, errors='coerce').fillna(0)` on one cell. -/
def coerceFill (v : Option ℚ) : ℚ := v.getD 0

/-- `df[col].sum()` after the coercion above. -/
def sumCol (df : List GARow) (col : GARow → Option ℚ) : ℚ :=
  (df.map (fun r => coerceFill (col r))).sum

/-- `df[col].mean()` after the coercion (no NaN remains, so the mean
is the sum over the row count). -/
def meanCol (df : List GARow) (col : GARow → Option ℚ) : ℚ :=
  sumCol df col / df.length

/-- Python `int(x)` on a number: truncation toward zero. -/
def pyInt (q : ℚ) : ℤ := if q < 0 then ⌈q⌉ else ⌊q⌋

/-- Nearest integer, ties to even (Python's rounding rule). -/
def roundHalfEven (x : ℚ) : ℤ :=
  if x - ⌊x⌋ < 1/2 then ⌊x⌋
  else if 1/2 < x - ⌊x⌋ then ⌊x⌋ + 1
  else if Even ⌊x⌋ then ⌊x⌋ else ⌊x⌋ + 1

/-- Python `round(x, 2)`, modelled exactly over `ℚ`. -/
def pyRound2 (x : ℚ) : ℚ := (roundHalfEven (x * 100) : ℚ) / 100

/-- Python `a / b`: raises `ZeroDivisionError` when `b == 0`. -/
def pyDiv (a b : ℚ) : Option ℚ := if b = 0 then none else some (a / b)

/-- The per-campaign aggregation result dict built by
`ReportGenerator.calculate_metrics`. -/
structure MetricsRecord where
  campaign_name : PyStr
  campaign_id : PyStr
  location : PyStr
  budget : ℚ
  total_sessions : ℤ
  total_users : ℤ
  new_users : ℤ
  page_views : ℤ
  avg_session_duration : ℚ
  bounce_rate : ℚ
  conversions : ℤ
  cpa : ℚ
  cost_per_session : ℚ
deriving DecidableEq

/-- `ReportGenerator.calculate_metrics` (report_generator.py:130-184).
`none` models an uncaught exception (the only raising operation is the
`/` in the cost derivation). -/
def calculate_metrics (df : List GARow) (campaign : Campaign) :
    Option MetricsRecord :=
  if df.isEmpty then
    some { campaign_name := campaign.name
           campaign_id := reportGenerateCampaignId campaign
           location := campaign.location
           budget := campaign.budget
           total_sessions := 0, total_users := 0, new_users := 0
           page_views := 0, avg_session_duration := 0, bounce_rate := 0
           conversions := 0, cpa := 0, cost_per_session := 0 }
  else
    let total_sessions := sumCol df (fun r => r.sessions)
    let total_users := sumCol df (fun r => r.totalUsers)
    let new_users := sumCol df (fun r => r.newUsers)
    let page_views := sumCol df (fun r => r.screenPageViews)
    let avg_duration := meanCol df (fun r => r.averageSessionDuration)
    let bounce_rate := meanCol df (fun r => r.bounceRate)
    let conversions := sumCol df (fun r => r.conversions)
    let budget := campaign.budget
    (if conversions > 0 then pyDiv budget conversions else some 0).bind
      (fun cpa =>
        (if total_sessions > 0 then pyDiv budget total_sessions
         else some 0).bind
          (fun cost_per_session =>
            some { campaign_name := campaign.name
                   campaign_id := reportGenerateCampaignId campaign
                   location := campaign.location
                   budget := budget
                   total_sessions := pyInt total_sessions
                   total_users := pyInt total_users
                   new_users := pyInt new_users
                   page_views := pyInt page_views
                   avg_session_duration := pyRound2 avg_duration
                   bounce_rate := pyRound2 bounce_rate
                   conversions := pyInt conversions
                   cpa := pyRound2 cpa
                   cost_per_session := pyRound2 cost_per_session }))

/-- `ReportGenerator.fetch_campaign_data` (report_generator.py:76-128):
the GA4 API call is an oracle; any exception it raises is caught and
an empty DataFrame returned. -/
def fetch_campaign_data (api : Except PyStr (List GARow)) : List GARow :=
  match api with
  | .ok rows => rows
  | .error _ => []

/-- A concrete response row: 1 session, 3 conversions. -/
def demoRow : GARow where
  sessions := some 1
  totalUsers := some 1
  newUsers := some 0
  screenPageViews := some 2
  averageSessionDuration := some 10
  bounceRate := some 0
  conversions := some 3

/-- A campaign with budget 1, used to exhibit the rounding of the
derived cost metrics. -/
def unitBudgetCampaign : Campaign :=
  { demoCampaign with budget := 1 }

/-! ## Calendar dates (datetime.date) and `strptime '%Y-%m-%d'` -/

/-- A `datetime.date`. -/
structure Date where
  year : Nat
  month : Nat
  day : Nat
deriving DecidableEq

/-- `date < date`: lexicographic on (year, month, day), as Python
compares date objects. -/
def dateLt (a b : Date) : Bool :=
  Nat.blt a.year b.year ||
  (a.year == b.year && (Nat.blt a.month b.month ||
    (a.month == b.month && Nat.blt a.day b.day)))

/-- `date <= date`. -/
def dateLe (a b : Date) : Bool := dateLt a b || a == b

/-- Python `max(a, b)`: the second argument wins only when strictly
greater. -/
def dmax (a b : Date) : Date := if dateLt a b then b else a

/-- Python `min(a, b)`: the second argument wins only when strictly
smaller. -/
def dmin (a b : Date) : Date := if dateLt b a then b else a

/-- Gregorian leap year. -/
def isLeap (y : Nat) : Bool :=
  y % 4 == 0 && (y % 100 != 0 || y % 400 == 0)

/-- Days in a month. -/
def daysInMonth (y m : Nat) : Nat :=
  if m = 2 then (if isLeap y then 29 else 28)
  else if m = 4 ∨ m = 6 ∨ m = 9 ∨ m = 11 then 30
  else 31

/-- `date - timedelta(days=1)`. -/
def predDate (d : Date) : Date :=
  if 1 < d.day then ⟨d.year, d.month, d.day - 1⟩
  else if 1 < d.month then
    ⟨d.year, d.month - 1, daysInMonth d.year (d.month - 1)⟩
  else ⟨d.year - 1, 12, 31⟩

/-- Split a string at every occurrence of a separator character
(Python `s.split(sep)`; the empty string yields `[[]]`). -/
def splitOnChar (sep : Char) : PyStr → List PyStr
  | [] => [[]]
  | c :: rest =>
    if c = sep then [] :: splitOnChar sep rest
    else
      match splitOnChar sep rest with
      | [] => [[c]]
      | p :: ps => (c :: p) :: ps

/-- Numeric value of a digit string. -/
def natOfDigits (s : PyStr) : Nat :=
  s.foldl (fun acc c => acc * 10 + (c.toNat - 48)) 0

/-- `datetime.strptime(s, '%Y-%m-%d').date()`: four year digits, one
or two month and day digits, then range validation (month 1..12, day
1..days-in-month, year at least MINYEAR); `none` models the
`ValueError` raised on any other input. -/
def parseDate (s : PyStr) : Option Date :=
  match splitOnChar '-' s with
  | [ys, ms, ds] =>
    if ys.length = 4 ∧ ys.all Char.isDigit ∧
       1 ≤ ms.length ∧ ms.length ≤ 2 ∧ ms.all Char.isDigit ∧
       1 ≤ ds.length ∧ ds.length ≤ 2 ∧ ds.all Char.isDigit then
      let y := natOfDigits ys
      let m := natOfDigits ms
      let d := natOfDigits ds
      if 1 ≤ y ∧ 1 ≤ m ∧ m ≤ 12 ∧ 1 ≤ d ∧ d ≤ daysInMonth y m then
        some ⟨y, m, d⟩
      else none
    else none
  | _ => none

/-! ## The two report modes (report_generator.py:186-225, 267-311) -/

/-- The GA4 Data API as an oracle: campaign-id filter and date range
in, either rows or a raised exception out. -/
abbrev GA4Api := PyStr → Date → Date → Except PyStr (List GARow)

/-- What `generate_period_report` accumulates for one non-skipped
campaign: the id it filtered on, the clamped fetch window, and the
aggregated metrics. -/
structure PeriodEntry where
  campaign_id : PyStr
  fetchStart : Date
  fetchEnd : Date
  metrics : MetricsRecord
deriving DecidableEq

/-- The body of the per-campaign loop of
`ReportGenerator.generate_period_report` (report_generator.py:274-301).
Outer `none` models an uncaught exception (date parsing); inner `none`
models `continue` (the campaign is skipped). -/
def processPeriodCampaign (api : GA4Api) (start_date end_date : PyStr)
    (c : Campaign) : Option (Option PeriodEntry) := do
  let campaign_start ← parseDate c.start_date
  let campaign_end ← parseDate c.end_date
  let report_start ← parseDate start_date
  let report_end ← parseDate end_date
  let actual_start := dmax campaign_start report_start
  let actual_end := dmin campaign_end report_end
  if dateLt actual_end actual_start then
    pure none
  else do
    let campaign_id := reportGenerateCampaignId c
    let df := fetch_campaign_data (api campaign_id actual_start actual_end)
    let m ← calculate_metrics df c
    pure (some ⟨campaign_id, actual_start, actual_end, m⟩)

/-- `ReportGenerator.generate_period_report`: one entry per
non-skipped campaign, in list order. -/
def generate_period_report (api : GA4Api) (start_date end_date : PyStr)
    (campaigns : List Campaign) : Option (List PeriodEntry) := do
  let entries ← campaigns.mapM (processPeriodCampaign api start_date end_date)
  pure (entries.filterMap id)

/-- One emitted daily-report row. -/
structure DailyEntry where
  campaign_id : PyStr
  report_date : Date
  metrics : MetricsRecord
deriving DecidableEq

/-- The body of the per-campaign loop of
`ReportGenerator.generate_daily_report` (report_generator.py:198-219). -/
def processDailyCampaign (api : GA4Api) (report_date : Date)
    (c : Campaign) : Option (Option DailyEntry) := do
  let start_date ← parseDate c.start_date
  let end_date ← parseDate c.end_date
  if dateLe start_date report_date && dateLe report_date end_date then do
    let campaign_id := reportGenerateCampaignId c
    let df := fetch_campaign_data (api campaign_id report_date report_date)
    let m ← calculate_metrics df c
    pure (some ⟨campaign_id, report_date, m⟩)
  else
    pure none

/-- Resolution of the `report_date` argument
(report_generator.py:188-191): `None` defaults to yesterday relative
to `datetime.now().date()` (the `today` parameter); an explicit
argument is parsed with `strptime`. -/
def resolveReportDate (today : Date) : Option PyStr → Option Date
  | none => some (predDate today)
  | some s => parseDate s

/-- `ReportGenerator.generate_daily_report`: one row per campaign
whose window contains the resolved report date. -/
def generate_daily_report (api : GA4Api) (today : Date)
    (dateArg : Option PyStr) (campaigns : List Campaign) :
    Option (List DailyEntry) := do
  let rd ← resolveReportDate today dateArg
  let entries ← campaigns.mapM (processDailyCampaign api rd)
  pure (entries.filterMap id)

/-- A GA4 oracle that always answers with an empty result set. -/
def nullApi : GA4Api := fun _ _ _ => Except.ok []

/-- Concrete campaign with window 2024-01-10 .. 2024-01-20. -/
def periodCampaignA : Campaign :=
  { demoCampaign with
      start_date := pys "2024-01-10", end_date := pys "2024-01-20" }

/-- Concrete campaign with window 2024-01-01 .. 2024-01-05. -/
def periodCampaignB : Campaign :=
  { demoCampaign with
      start_date := pys "2024-01-01", end_date := pys "2024-01-05" }

/-! ## GA4 custom-dimension setup (ga4_setup.py:83-140) -/

/-- The scope of a GA4 custom dimension. -/
inductive DimensionScope where
  | EVENT
  | USER
deriving DecidableEq

/-- One remote custom dimension, with the fields
`get_custom_dimensions` reads back. -/
structure CustomDimension where
  parameter_name : PyStr
  display_name : PyStr
  description : PyStr
  scope : DimensionScope
deriving DecidableEq

/-- What one `create_custom_dimension` call did. -/
inductive SetupAction where
  | created (d : CustomDimension)
  | skipped (parameter_name : PyStr)
deriving DecidableEq

/-- `GA4Setup.create_custom_dimension` (ga4_setup.py:102-140) on the
happy path: list the property's existing dimensions
(`get_custom_dimensions`), return reporting "already exists" when one
matches `parameter_name`, otherwise create a new event-scoped
dimension (the remote create appends to the property's dimension
list).  Result: the remote state afterwards and the action taken. -/
def create_custom_dimension (state : List CustomDimension)
    (parameter_name display_name description : PyStr) :
    List CustomDimension × SetupAction :=
  match state.find? (fun d => d.parameter_name == parameter_name) with
  | some _ => (state, SetupAction.skipped parameter_name)
  | none =>
    let dimension : CustomDimension :=
      ⟨parameter_name, display_name, description, DimensionScope.EVENT⟩
    (state ++ [dimension], SetupAction.created dimension)

/-! ## urllib.parse: percent-encoding (quote_plus / unquote_plus) -/

/-- The characters `urllib.parse` never quotes: ASCII alphanumerics
and `_.-~`. -/
def alwaysSafeChar (c : Char) : Bool :=
  c.isAlpha || c.isDigit || c = '_' || c = '.' || c = '-' || c = '~'

/-- Uppercase hex digit, as `quote` emits (`%XX`). -/
def hexUpperChar (n : Nat) : Char :=
  (['0', '1', '2', '3', '4', '5', '6', '7',
    '8', '9', 'A', 'B', 'C', 'D', 'E', 'F'] : List Char).getD n '0'

/-- `%XX%XX...` for a byte sequence. -/
def percentBytes (bs : List Nat) : PyStr :=
  bs.flatMap (fun b => ['%', hexUpperChar (b / 16), hexUpperChar (b % 16)])

/-- `urllib.parse.quote_plus` on one character: safe characters pass,
space becomes `+`, anything else is percent-encoded per UTF-8 byte. -/
def quotePlusChar (c : Char) : PyStr :=
  if alwaysSafeChar c then [c]
  else if c = ' ' then ['+']
  else percentBytes (utf8Char c)

/-- `urllib.parse.quote_plus(s, safe='')` (what `urlencode` uses). -/
def quote_plus (s : PyStr) : PyStr := s.flatMap quotePlusChar

/-- Accepted hex digit of `unquote` (either case). -/
def isHexDigitChar (c : Char) : Bool :=
  c.isDigit || ('a' ≤ c && c ≤ 'f') || ('A' ≤ c && c ≤ 'F')

/-- Value of a hex digit character. -/
def hexVal (c : Char) : Nat :=
  if c.isDigit then c.toNat - 48
  else if 'a' ≤ c && c ≤ 'f' then c.toNat - 87
  else c.toNat - 55

/-- The maximal leading run of valid `%XX` triples: its byte values,
and the remaining input. -/
def percentRun : PyStr → List Nat × PyStr
  | [] => ([], [])
  | c :: rest =>
    if c = '%' then
      match rest with
      | h1 :: h2 :: rest2 =>
        if isHexDigitChar h1 && isHexDigitChar h2 then
          ((hexVal h1 * 16 + hexVal h2) :: (percentRun rest2).1,
            (percentRun rest2).2)
        else ([], c :: rest)
      | [h1] => ([], c :: [h1])
      | [] => ([], [c])
    else ([], c :: rest)

/-- U+FFFD, the replacement character of `errors='replace'`. -/
def replChar : Char := Char.ofNat 0xFFFD

/-- Continuation byte. -/
def isContByte (b : Nat) : Bool := 0x80 ≤ b && b ≤ 0xBF

/-- Admissible first continuation byte after a three-byte lead
(excluding overlong and surrogate encodings). -/
def cont1Ok3 (b b1 : Nat) : Bool :=
  if b = 0xE0 then decide (0xA0 ≤ b1 ∧ b1 ≤ 0xBF)
  else if b = 0xED then decide (0x80 ≤ b1 ∧ b1 ≤ 0x9F)
  else isContByte b1

/-- Admissible first continuation byte after a four-byte lead. -/
def cont1Ok4 (b b1 : Nat) : Bool :=
  if b = 0xF0 then decide (0x90 ≤ b1 ∧ b1 ≤ 0xBF)
  else if b = 0xF4 then decide (0x80 ≤ b1 ∧ b1 ≤ 0x8F)
  else isContByte b1

/-- One step of the incremental UTF-8 decoder with replacement: given
a lead byte and the following bytes, the decoded character (U+FFFD
for an ill-formed sequence) and how many continuation bytes were
consumed (the maximal valid part of the sequence). -/
def utf8Step (b : Nat) (rest : List Nat) : Char × Nat :=
  if b < 0x80 then (Char.ofNat b, 0)
  else if 0xC2 ≤ b ∧ b ≤ 0xDF then
    match rest with
    | b1 :: _ =>
      if isContByte b1 then
        (Char.ofNat ((b - 0xC0) * 64 + (b1 - 0x80)), 1)
      else (replChar, 0)
    | [] => (replChar, 0)
  else if 0xE0 ≤ b ∧ b ≤ 0xEF then
    match rest with
    | b1 :: b2 :: _ =>
      if cont1Ok3 b b1 then
        if isContByte b2 then
          (Char.ofNat ((b - 0xE0) * 4096 + (b1 - 0x80) * 64 + (b2 - 0x80)), 2)
        else (replChar, 1)
      else (replChar, 0)
    | [b1] => if cont1Ok3 b b1 then (replChar, 1) else (replChar, 0)
    | [] => (replChar, 0)
  else if 0xF0 ≤ b ∧ b ≤ 0xF4 then
    match rest with
    | b1 :: b2 :: b3 :: _ =>
      if cont1Ok4 b b1 then
        if isContByte b2 then
          if isContByte b3 then
            (Char.ofNat ((b - 0xF0) * 262144 + (b1 - 0x80) * 4096 +
              (b2 - 0x80) * 64 + (b3 - 0x80)), 3)
          else (replChar, 2)
        else (replChar, 1)
      else (replChar, 0)
    | [b1, b2] =>
      if cont1Ok4 b b1 then
        if isContByte b2 then (replChar, 2) else (replChar, 1)
      else (replChar, 0)
    | [b1] => if cont1Ok4 b b1 then (replChar, 1) else (replChar, 0)
    | [] => (replChar, 0)
  else (replChar, 0)

/-- The decoding loop, on a fuel bound (every step consumes at least
the lead byte). -/
def utf8DecodeGo : Nat → List Nat → PyStr
  | 0, _ => []
  | _, [] => []
  | fuel + 1, b :: rest =>
    (utf8Step b rest).1 ::
      utf8DecodeGo fuel (rest.drop (utf8Step b rest).2)

/-- `bytes.decode('utf-8', errors='replace')`: each ill-formed
sequence is replaced by U+FFFD (consuming its maximal valid part). -/
def utf8DecodeReplace (bs : List Nat) : PyStr := utf8DecodeGo bs.length bs

/-- One scanning pass of `urllib.parse.unquote` over the
`%`-structure, on a fuel bound (each step consumes at least one input
character). -/
def pyUnquoteGo : Nat → PyStr → PyStr
  | 0, s => s
  | _, [] => []
  | fuel + 1, c :: rest =>
    if c = '%' then
      if (percentRun (c :: rest)).1 = [] then c :: pyUnquoteGo fuel rest
      else
        utf8DecodeReplace (percentRun (c :: rest)).1 ++
          pyUnquoteGo fuel (percentRun (c :: rest)).2
    else c :: pyUnquoteGo fuel rest

/-- `urllib.parse.unquote(s, errors='replace')`. -/
def pyUnquote (s : PyStr) : PyStr := pyUnquoteGo s.length s

/-- `s.replace('+', ' ')`. -/
def plusToSpace (s : PyStr) : PyStr :=
  s.map (fun c => if c = '+' then ' ' else c)

/-- `urllib.parse.unquote_plus`: `+` becomes space, then unquote
(this is also what `parse_qsl` applies to names and values). -/
def unquote_plus (s : PyStr) : PyStr :=
  pyUnquote (plusToSpace s)

/-! ## urllib.parse: query strings and URL structure -/

/-- Python `s.split(sep, 1)`: `none` when the separator is absent. -/
def splitFirstChar (sep : Char) : PyStr → Option (PyStr × PyStr)
  | [] => none
  | c :: rest =>
    if c = sep then some ([], rest)
    else (splitFirstChar sep rest).map (fun p => (c :: p.1, p.2))

/-- `sep.join(segs)`. -/
def joinChar (sep : Char) : List PyStr → PyStr
  | [] => []
  | [s] => s
  | s :: rest => s ++ sep :: joinChar sep rest

/-- `urllib.parse.parse_qsl(qs)` with default arguments
(`keep_blank_values=False`, separator `&`): empty segments,
segments without `=`, and blank values are dropped; names and
values are `unquote_plus`-decoded. -/
def parse_qsl (qs : PyStr) : List (PyStr × PyStr) :=
  (splitOnChar '&' qs).flatMap (fun seg =>
    if seg = [] then []
    else
      match splitFirstChar '=' seg with
      | none => []
      | some (n, v) =>
        if v = [] then [] else [(unquote_plus n, unquote_plus v)])

/-- `urllib.parse.parse_qsl(qs, keep_blank_values=True)` — used below
only to read off which decoded name/value pairs a query string
carries, blanks included. -/
def parse_qsl_keepblank (qs : PyStr) : List (PyStr × PyStr) :=
  (splitOnChar '&' qs).flatMap (fun seg =>
    if seg = [] then []
    else
      match splitFirstChar '=' seg with
      | none => [(unquote_plus seg, [])]
      | some (n, v) => [(unquote_plus n, unquote_plus v)])

/-- A Python dict from parameter name to list of values, as an
insertion-ordered association list (how `dict` iterates). -/
abbrev QueryDict := List (PyStr × List PyStr)

/-- `parsed[name].append(value)` / `parsed[name] = [value]` — the
accumulation step of `parse_qs`. -/
def dictAppendValue (d : QueryDict) (k v : PyStr) : QueryDict :=
  if d.any (fun p => p.1 == k) then
    d.map (fun p => if p.1 == k then (p.1, p.2 ++ [v]) else p)
  else d ++ [(k, [v])]

/-- `urllib.parse.parse_qs(qs)`. -/
def parse_qs (qs : PyStr) : QueryDict :=
  (parse_qsl qs).foldl (fun d p => dictAppendValue d p.1 p.2) []

/-- Python dict assignment `d[k] = vs`: overwrite in place, or append
a new key at the end. -/
def dictSet (d : QueryDict) (k : PyStr) (vs : List PyStr) : QueryDict :=
  if d.any (fun p => p.1 == k) then
    d.map (fun p => if p.1 == k then (p.1, vs) else p)
  else d ++ [(k, vs)]

/-- Lookup in the dict (`d[k]`, first entry with that name). -/
def dictFind (d : QueryDict) (k : PyStr) : Option (List PyStr) :=
  (d.find? (fun p => p.1 == k)).map (fun p => p.2)

/-- `urllib.parse.urlencode(d, doseq=True)`: one `k=v` pair per list
element, `quote_plus`-encoded, joined with `&`. -/
def urlencode (d : QueryDict) : PyStr :=
  joinChar '&'
    (d.flatMap (fun p => p.2.map (fun v => quote_plus p.1 ++ '=' :: quote_plus v)))

/-- The scheme characters of `urllib.parse`. -/
def isSchemeChar (c : Char) : Bool :=
  c.isAlpha || c.isDigit || c = '+' || c = '-' || c = '.'

/-- ASCII lowercasing (`str.lower` restricted to what schemes use). -/
def asciiLower (c : Char) : Char :=
  if 65 ≤ c.toNat ∧ c.toNat ≤ 90 then Char.ofNat (c.toNat + 32) else c

/-- The scheme step of `urlsplit`: split at the first `:` when the
prefix is a well-formed scheme (leading ASCII letter, scheme
characters throughout); the scheme is lowercased. -/
def splitScheme (url : PyStr) : PyStr × PyStr :=
  match splitFirstChar ':' url with
  | none => ([], url)
  | some (before, after) =>
    match before with
    | [] => ([], url)
    | c :: _ =>
      if c.isAlpha && before.all isSchemeChar then
        (before.map asciiLower, after)
      else ([], url)

/-- Scan up to the first `/`, `?` or `#` (the netloc delimiter). -/
def takeUntilDelim : PyStr → PyStr × PyStr
  | [] => ([], [])
  | c :: rest =>
    if c = '/' ∨ c = '?' ∨ c = '#' then ([], c :: rest)
    else
      let p := takeUntilDelim rest
      (c :: p.1, p.2)

/-- The netloc step of `urlsplit`: after `//`, up to the next
delimiter. -/
def splitNetloc (url : PyStr) : PyStr × PyStr :=
  if url.take 2 = ['/', '/'] then takeUntilDelim (url.drop 2)
  else ([], url)

/-- Split at the first occurrence of a character, keeping everything
when absent (the fragment and query steps of `urlsplit`). -/
def splitAtFirst (sep : Char) (s : PyStr) : PyStr × PyStr :=
  match splitFirstChar sep s with
  | none => (s, [])
  | some p => p

/-- `urllib.parse._splitparams`: parameters after the `;` of the last
path segment. -/
def splitParams (url : PyStr) : PyStr × PyStr :=
  if url.contains '/' then
    match splitFirstChar '/' url.reverse with
    | none => (url, [])
    | some (tailRev, initRev) =>
      match splitFirstChar ';' tailRev.reverse with
      | none => (url, [])
      | some (a, b) => (initRev.reverse ++ '/' :: a, b)
  else
    match splitFirstChar ';' url with
    | none => (url, [])
    | some (a, b) => (a, b)

/-- The six components of `urllib.parse.urlparse`. -/
structure UrlParts where
  scheme : PyStr
  netloc : PyStr
  path : PyStr
  params : PyStr
  query : PyStr
  fragment : PyStr
deriving DecidableEq

/-- `urllib.parse.urlparse` (scheme, then netloc, then fragment, then
query, then params — the order of `urlsplit`). -/
def pyUrlparse (url : PyStr) : UrlParts :=
  let s1 := splitScheme url
  let s2 := splitNetloc s1.2
  let s3 := splitAtFirst '#' s2.2
  let s4 := splitAtFirst '?' s3.1
  let s5 := splitParams s4.1
  ⟨s1.1, s2.1, s5.1, s5.2, s4.2, s3.2⟩

/-- `urllib.parse.urlunparse` / `urlunsplit`. -/
def pyUrlunparse (u : UrlParts) : PyStr :=
  let url0 := if u.params ≠ [] then u.path ++ ';' :: u.params else u.path
  let url1 :=
    if u.netloc ≠ [] ∨ url0.take 2 = ['/', '/'] then
      '/' :: '/' :: (u.netloc ++
        (if url0 ≠ [] ∧ url0.take 1 ≠ ['/'] then '/' :: url0 else url0))
    else url0
  let url2 := if u.scheme ≠ [] then u.scheme ++ ':' :: url1 else url1
  let url3 := if u.query ≠ [] then url2 ++ '?' :: u.query else url2
  if u.fragment ≠ [] then url3 ++ '#' :: u.fragment else url3

/-- The query component of a URL, as the code's own parser reads it. -/
def urlQuery (url : PyStr) : PyStr := (pyUrlparse url).query

/-- `QRCodeGenerator.build_utm_url` (qr_generator.py:39-71): parse the
target URL, merge the five UTM parameters over the existing query
mapping (overwriting, single-valued), re-encode and reassemble. -/
def build_utm_url (c : Campaign) : PyStr × PyStr :=
  let campaign_id := qrGenerateCampaignId c
  let parsed := pyUrlparse c.target_url
  let query_params := parse_qs parsed.query
  let utm_params : List (PyStr × PyStr) :=
    [(pys "utm_source", pys "offline"),
     (pys "utm_medium", pys "print"),
     (pys "utm_campaign", campaign_id),
     (pys "utm_content", c.location),
     (pys "utm_term", c.name)]
  let query_params :=
    utm_params.foldl (fun d p => dictSet d p.1 [p.2]) query_params
  let new_query := urlencode query_params
  (pyUrlunparse { parsed with query := new_query }, campaign_id)

/-- The five attribution parameter names. -/
def utmKeys : List PyStr :=
  [pys "utm_source", pys "utm_medium", pys "utm_campaign",
   pys "utm_content", pys "utm_term"]

/-- A character `quote_plus` percent-encodes (not safe, not space). -/
def isUnsafeChar (c : Char) : Bool := !alwaysSafeChar c && !(c == ' ')

/-- `quote_plus` followed by the `+`-to-space substitution of
`unquote_plus`, per character. -/
def qpm (c : Char) : PyStr :=
  if alwaysSafeChar c then [c]
  else if c = ' ' then [' ']
  else percentBytes (utf8Char c)

/-- One `k=v` segment of `urlencode` output. -/
def encodePair (k v : PyStr) : PyStr := quote_plus k ++ '=' :: quote_plus v

/-- The (name, value) pairs a dict flattens to, in emission order. -/
def pairsOf (d : QueryDict) : List (PyStr × PyStr) :=
  d.flatMap (fun p => p.2.map (fun v => (p.1, v)))

/-- The parameter names of a dict, in order. -/
def keysOf (d : QueryDict) : List PyStr := d.map (fun p => p.1)

/-! ## Query extraction through unparse/parse -/

/-- No `?` and no `#` in a string (the shape invariant the query
split relies on). -/
def noQF (s : PyStr) : Prop := ∀ x ∈ s, x ≠ '?' ∧ x ≠ '#'

def urlBase (u : UrlParts) : PyStr :=
  let url0 := if u.params ≠ [] then u.path ++ ';' :: u.params else u.path
  let url1 :=
    if u.netloc ≠ [] ∨ url0.take 2 = ['/', '/'] then
      '/' :: '/' :: (u.netloc ++
        (if url0 ≠ [] ∧ url0.take 1 ≠ ['/'] then '/' :: url0 else url0))
    else url0
  if u.scheme ≠ [] then u.scheme ++ ':' :: url1 else url1

/-- The query dictionary `build_utm_url` rebuilds: the parsed query of
the target URL with the five attribution keys overwritten. -/
def utmDict (c : Campaign) : QueryDict :=
  dictSet (dictSet (dictSet (dictSet (dictSet
    (parse_qs (pyUrlparse c.target_url).query)
    (pys "utm_source") [pys "offline"])
    (pys "utm_medium") [pys "print"])
    (pys "utm_campaign") [qrGenerateCampaignId c])
    (pys "utm_content") [c.location])
    (pys "utm_term") [c.name]

/-- Sanity: the model reproduces the RFC 1321 test vector md5("abc"). -/
theorem md5_abc_vector :
    md5Hexdigest (utf8Str (pys "abc")) =
      pys "900150983cd24fb0d6963f7d28e17f72" := by decide

/-! ## Properties of the campaign-identity derivation (claims C1, C10) -/

theorem hexChar_mem_hexLower (n : Nat) : hexChar n ∈ hexLower := by
  unfold hexChar
  rcases Nat.lt_or_ge n 16 with h | h
  · interval_cases n <;> decide
  · have hd : hexLower.getD n '0' = '0' := by
      apply List.getD_eq_default
      have hlen : hexLower.length = 16 := by decide
      omega
    rw [hd]
    decide

theorem flatMap_byteHex_length (l : List Nat) :
    (l.flatMap byteHex).length = 2 * l.length := by
  induction l with
  | nil => simp
  | cons b t ih => simp [List.flatMap_cons, byteHex, ih]; omega

theorem md5Bytes_length (msg : List Nat) : (md5Bytes msg).length = 16 := by
  unfold md5Bytes
  simp [wordBytes]

theorem md5Hexdigest_length (bs : List Nat) :
    (md5Hexdigest bs).length = 32 := by
  unfold md5Hexdigest
  rw [flatMap_byteHex_length, md5Bytes_length]

theorem qrGenerateCampaignId_length (c : Campaign) :
    (qrGenerateCampaignId c).length = 8 := by
  unfold qrGenerateCampaignId
  rw [List.length_take, md5Hexdigest_length]
  rfl

theorem qrGenerateCampaignId_mem_hex (c : Campaign) :
    ∀ ch ∈ qrGenerateCampaignId c, ch ∈ hexLower := by
  intro ch hch
  unfold qrGenerateCampaignId at hch
  have h2 := List.mem_of_mem_take hch
  unfold md5Hexdigest at h2
  rw [List.mem_flatMap] at h2
  obtain ⟨b, _, hb⟩ := h2
  unfold byteHex at hb
  rcases List.mem_pair.mp hb with rfl | rfl <;> exact hexChar_mem_hexLower _

/-- C1: for every campaign with non-empty name and start_date, the
campaign-identity derivation is deterministic and returns an
8-character lowercase-hexadecimal token computed by hashing
`name ++ "_" ++ start_date` and taking the first 8 characters of the
hex digest, and the QR-generation and report-generation
implementations of the derivation agree on every input. -/
theorem campaign_identity_ok (c : Campaign)
    (h1 : c.name ≠ []) (h2 : c.start_date ≠ []) :
    qrGenerateCampaignId c = reportGenerateCampaignId c
    ∧ qrGenerateCampaignId c =
        (md5Hexdigest (utf8Str (c.name ++ '_' :: c.start_date))).take 8
    ∧ (qrGenerateCampaignId c).length = 8
    ∧ (∀ ch ∈ qrGenerateCampaignId c, ch ∈ hexLower)
    ∧ (∀ c2 : Campaign, c2.name = c.name → c2.start_date = c.start_date →
        qrGenerateCampaignId c2 = qrGenerateCampaignId c ∧
        reportGenerateCampaignId c2 = reportGenerateCampaignId c) := by
  refine ⟨rfl, rfl, qrGenerateCampaignId_length c,
    qrGenerateCampaignId_mem_hex c, ?_⟩
  intro c2 hn hs
  constructor <;> simp [qrGenerateCampaignId, reportGenerateCampaignId, hn, hs]

/-- Witness for C1 at a concrete campaign. -/
theorem campaign_identity_ok_witness :
    demoCampaign.name ≠ [] ∧ demoCampaign.start_date ≠ [] ∧
    (qrGenerateCampaignId demoCampaign = reportGenerateCampaignId demoCampaign
    ∧ qrGenerateCampaignId demoCampaign =
        (md5Hexdigest (utf8Str
          (demoCampaign.name ++ '_' :: demoCampaign.start_date))).take 8
    ∧ (qrGenerateCampaignId demoCampaign).length = 8
    ∧ (∀ ch ∈ qrGenerateCampaignId demoCampaign, ch ∈ hexLower)
    ∧ (∀ c2 : Campaign, c2.name = demoCampaign.name →
        c2.start_date = demoCampaign.start_date →
        qrGenerateCampaignId c2 = qrGenerateCampaignId demoCampaign ∧
        reportGenerateCampaignId c2 =
          reportGenerateCampaignId demoCampaign)) :=
  ⟨by decide, by decide,
    campaign_identity_ok demoCampaign (by decide) (by decide)⟩

/-- C10: the campaign token depends only on `name` and `start_date`:
campaigns agreeing on those two fields receive identical tokens from
both implementations, however they differ in location, budget,
target_url or end_date. -/
theorem token_depends_only_on_name_start (c1 c2 : Campaign)
    (hn : c1.name = c2.name) (hs : c1.start_date = c2.start_date) :
    qrGenerateCampaignId c1 = qrGenerateCampaignId c2
    ∧ reportGenerateCampaignId c1 = reportGenerateCampaignId c2
    ∧ qrGenerateCampaignId c1 = reportGenerateCampaignId c2 := by
  refine ⟨?_, ?_, ?_⟩ <;>
    simp [qrGenerateCampaignId, reportGenerateCampaignId, hn, hs]

/-- Witness for C10: two campaigns sharing only name and start_date
(location, budget, end_date, target_url all differ) get equal tokens. -/
theorem token_depends_only_on_name_start_witness :
    demoCampaign.name = demoCampaignVariant.name ∧
    demoCampaign.start_date = demoCampaignVariant.start_date ∧
    demoCampaign.location ≠ demoCampaignVariant.location ∧
    demoCampaign.budget ≠ demoCampaignVariant.budget ∧
    (qrGenerateCampaignId demoCampaign =
        qrGenerateCampaignId demoCampaignVariant
    ∧ reportGenerateCampaignId demoCampaign =
        reportGenerateCampaignId demoCampaignVariant
    ∧ qrGenerateCampaignId demoCampaign =
        reportGenerateCampaignId demoCampaignVariant) :=
  ⟨by decide, by decide, by decide, by decide,
    token_depends_only_on_name_start demoCampaign demoCampaignVariant
      (by decide) (by decide)⟩

/-! ## Claims C6, C7, C9 about the aggregation -/

/-- C6: aggregation over an empty row set returns a record with every
volume metric and both derived cost metrics equal to zero — a value,
not an error. -/
theorem aggregate_empty_all_zero (c : Campaign) :
    ∃ r, calculate_metrics [] c = some r ∧
      r.total_sessions = 0 ∧ r.total_users = 0 ∧ r.new_users = 0 ∧
      r.page_views = 0 ∧ r.conversions = 0 ∧
      r.cpa = 0 ∧ r.cost_per_session = 0 :=
  ⟨_, rfl, rfl, rfl, rfl, rfl, rfl, rfl, rfl⟩

/-- Counterexample to C7 as stated: with budget 1 and 3 summed
conversions the emitted `cpa` is the quotient rounded to two decimal
places (0.33), not the exact quotient `budget / conversions` (1/3). -/
theorem cpa_rounded_counterexample :
    ∃ r, calculate_metrics [demoRow] unitBudgetCampaign = some r ∧
      sumCol [demoRow] (fun x => x.conversions) = 3 ∧
      unitBudgetCampaign.budget = 1 ∧
      r.cpa = 33 / 100 ∧
      r.cpa ≠ unitBudgetCampaign.budget /
        sumCol [demoRow] (fun x => x.conversions) := by
  have hconv : sumCol [demoRow] (fun x => x.conversions) = 3 := by
    simp [sumCol, coerceFill, demoRow]
  have hsess : sumCol [demoRow] (fun x => x.sessions) = 1 := by
    simp [sumCol, coerceFill, demoRow]
  have hb : unitBudgetCampaign.budget = 1 := rfl
  have hcpa : pyRound2 ((1 : ℚ) / 3) = 33 / 100 := by
    unfold pyRound2 roundHalfEven
    have h100 : (1 : ℚ) / 3 * 100 = 100 / 3 := by norm_num
    have hfl : ⌊(100 : ℚ) / 3⌋ = 33 := by
      rw [Int.floor_eq_iff] <;> norm_num
    rw [h100, hfl]
    norm_num
  unfold calculate_metrics
  rw [show ([demoRow] : List GARow).isEmpty = false from rfl]
  simp only [Bool.false_eq_true, if_false]
  rw [hconv, hsess, hb]
  rw [if_pos (by norm_num : (0 : ℚ) < 3), if_pos (by norm_num : (0 : ℚ) < 1)]
  unfold pyDiv
  rw [if_neg (by norm_num : (3 : ℚ) ≠ 0), if_neg (by norm_num : (1 : ℚ) ≠ 0)]
  refine ⟨_, rfl, rfl, rfl, hcpa, ?_⟩
  rw [hcpa]
  norm_num

theorem pyRound2_zero : pyRound2 0 = 0 := by
  unfold pyRound2 roundHalfEven
  norm_num

/-- C7 (amended): for a non-empty row set, `cpa` is
`budget / conversions` rounded to two decimal places when the summed
conversions are positive and 0 when they are not; `cost_per_session`
is `budget / sessions` rounded to two decimal places when the summed
sessions are positive and 0 when they are not; and the (raising)
division is never evaluated with a zero divisor — the aggregation
always returns a record. -/
theorem cost_metrics_guarded (df : List GARow) (c : Campaign)
    (h : df ≠ []) :
    ∃ r, calculate_metrics df c = some r ∧
      r.cpa = (if 0 < sumCol df (fun x => x.conversions)
               then pyRound2 (c.budget / sumCol df (fun x => x.conversions))
               else 0) ∧
      (sumCol df (fun x => x.conversions) = 0 → r.cpa = 0) ∧
      r.cost_per_session =
        (if 0 < sumCol df (fun x => x.sessions)
         then pyRound2 (c.budget / sumCol df (fun x => x.sessions))
         else 0) ∧
      (sumCol df (fun x => x.sessions) = 0 → r.cost_per_session = 0) := by
  have hne : df.isEmpty = false := by
    cases df with
    | nil => exact absurd rfl h
    | cons a t => rfl
  unfold calculate_metrics
  rw [hne]
  simp only [Bool.false_eq_true, if_false]
  by_cases hc : 0 < sumCol df (fun x => x.conversions) <;>
    by_cases hs : 0 < sumCol df (fun x => x.sessions)
  · rw [if_pos hc, if_pos hs]
    unfold pyDiv
    rw [if_neg hc.ne', if_neg hs.ne']
    refine ⟨_, rfl, ?_, ?_, ?_, ?_⟩
    · rw [if_pos hc]
    · intro h0; exact absurd h0 hc.ne'
    · rw [if_pos hs]
    · intro h0; exact absurd h0 hs.ne'
  · rw [if_pos hc, if_neg hs]
    unfold pyDiv
    rw [if_neg hc.ne']
    refine ⟨_, rfl, ?_, ?_, ?_, ?_⟩
    · rw [if_pos hc]
    · intro h0; exact absurd h0 hc.ne'
    · rw [if_neg hs]; exact pyRound2_zero
    · intro h0; exact pyRound2_zero
  · rw [if_neg hc, if_pos hs]
    unfold pyDiv
    rw [if_neg hs.ne']
    refine ⟨_, rfl, ?_, ?_, ?_, ?_⟩
    · rw [if_neg hc]; exact pyRound2_zero
    · intro h0; exact pyRound2_zero
    · rw [if_pos hs]
    · intro h0; exact absurd h0 hs.ne'
  · rw [if_neg hc, if_neg hs]
    refine ⟨_, rfl, ?_, ?_, ?_, ?_⟩
    · rw [if_neg hc]; exact pyRound2_zero
    · intro h0; exact pyRound2_zero
    · rw [if_neg hs]; exact pyRound2_zero
    · intro h0; exact pyRound2_zero

/-- Witness for C7 (amended) at a concrete non-empty row set. -/
theorem cost_metrics_guarded_witness :
    ([demoRow] : List GARow) ≠ [] ∧
    (∃ r, calculate_metrics [demoRow] demoCampaign = some r ∧
      r.cpa = (if 0 < sumCol [demoRow] (fun x => x.conversions)
               then pyRound2 (demoCampaign.budget /
                      sumCol [demoRow] (fun x => x.conversions))
               else 0) ∧
      (sumCol [demoRow] (fun x => x.conversions) = 0 → r.cpa = 0) ∧
      r.cost_per_session =
        (if 0 < sumCol [demoRow] (fun x => x.sessions)
         then pyRound2 (demoCampaign.budget /
                sumCol [demoRow] (fun x => x.sessions))
         else 0) ∧
      (sumCol [demoRow] (fun x => x.sessions) = 0 →
        r.cost_per_session = 0)) :=
  ⟨by simp, cost_metrics_guarded [demoRow] demoCampaign (by simp)⟩

/-- C9: a failed fetch returns an empty row set, so the report row for
that campaign equals the one a successful-but-empty fetch produces —
the all-zero record; fetch failures and zero traffic are
indistinguishable in the emitted metrics. -/
theorem fetch_failure_indistinguishable (c : Campaign) (e : PyStr) :
    fetch_campaign_data (Except.error e) = [] ∧
    calculate_metrics (fetch_campaign_data (Except.error e)) c =
      calculate_metrics (fetch_campaign_data (Except.ok [])) c ∧
    ∃ r, calculate_metrics (fetch_campaign_data (Except.error e)) c
          = some r ∧
      r.total_sessions = 0 ∧ r.total_users = 0 ∧ r.new_users = 0 ∧
      r.page_views = 0 ∧ r.conversions = 0 ∧ r.cpa = 0 ∧
      r.cost_per_session = 0 :=
  ⟨rfl, rfl, _, rfl, rfl, rfl, rfl, rfl, rfl, rfl, rfl⟩

/-! ## Claims C4 and C5 about the report modes -/

theorem calculate_metrics_isSome (df : List GARow) (c : Campaign) :
    ∃ r, calculate_metrics df c = some r := by
  unfold calculate_metrics
  by_cases he : df.isEmpty = true
  · rw [if_pos he]; exact ⟨_, rfl⟩
  · rw [if_neg he]
    simp only [gt_iff_lt]
    by_cases hc : 0 < sumCol df (fun x => x.conversions) <;>
      by_cases hs : 0 < sumCol df (fun x => x.sessions)
    · rw [if_pos hc, if_pos hs]
      unfold pyDiv
      rw [if_neg hc.ne', if_neg hs.ne']
      exact ⟨_, rfl⟩
    · rw [if_pos hc, if_neg hs]
      unfold pyDiv
      rw [if_neg hc.ne']
      exact ⟨_, rfl⟩
    · rw [if_neg hc, if_pos hs]
      unfold pyDiv
      rw [if_neg hs.ne']
      exact ⟨_, rfl⟩
    · rw [if_neg hc, if_neg hs]
      exact ⟨_, rfl⟩

/-- C4: in period mode the effective fetch window of a campaign is
`[max(campaign_start, report_start), min(campaign_end, report_end)]`
and the campaign is skipped exactly when that window is empty;
includes the two concrete instances named by the specification. -/
theorem period_mode_window (api : GA4Api) (ss es : PyStr) (c : Campaign)
    (cs ce rs re' : Date)
    (h1 : parseDate c.start_date = some cs)
    (h2 : parseDate c.end_date = some ce)
    (h3 : parseDate ss = some rs)
    (h4 : parseDate es = some re') :
    (∀ entry, processPeriodCampaign api ss es c = some (some entry) →
        entry.fetchStart = dmax cs rs ∧ entry.fetchEnd = dmin ce re')
    ∧ (processPeriodCampaign api ss es c = some none ↔
        dateLt (dmin ce re') (dmax cs rs) = true)
    ∧ (dateLt (dmin ce re') (dmax cs rs) = false →
        ∃ entry, processPeriodCampaign api ss es c = some (some entry) ∧
          entry.fetchStart = dmax cs rs ∧ entry.fetchEnd = dmin ce re')
    ∧ ((processPeriodCampaign nullApi
          (pys "2024-01-15") (pys "2024-01-25") periodCampaignA).map
        (Option.map (fun e => (e.fetchStart, e.fetchEnd))) =
          some (some (⟨2024, 1, 15⟩, ⟨2024, 1, 20⟩)))
    ∧ (processPeriodCampaign nullApi
          (pys "2024-01-10") (pys "2024-01-20") periodCampaignB
        = some none) := by
  unfold processPeriodCampaign
  rw [h1, h2, h3, h4]
  simp only [Option.bind_eq_bind, Option.some_bind]
  by_cases hskip : dateLt (dmin ce re') (dmax cs rs) = true
  · rw [if_pos hskip]
    refine ⟨?_, ?_, ?_, rfl, rfl⟩
    · intro entry hentry; cases hentry
    · exact ⟨fun _ => hskip, fun _ => rfl⟩
    · intro hfalse; rw [hskip] at hfalse; cases hfalse
  · rw [if_neg hskip]
    obtain ⟨m, hm⟩ := calculate_metrics_isSome
      (fetch_campaign_data
        (api (reportGenerateCampaignId c) (dmax cs rs) (dmin ce re'))) c
    rw [hm]
    simp only [Option.some_bind]
    refine ⟨?_, ?_, ?_, rfl, rfl⟩
    · intro entry hentry
      cases hentry
      exact ⟨rfl, rfl⟩
    · constructor
      · intro hc'; cases hc'
      · intro hc'; exact absurd hc' hskip
    · intro _; exact ⟨_, rfl, rfl, rfl⟩

/-- Witness for C4, at the specification's first concrete instance. -/
theorem period_mode_window_witness :
    parseDate periodCampaignA.start_date = some ⟨2024, 1, 10⟩ ∧
    parseDate periodCampaignA.end_date = some ⟨2024, 1, 20⟩ ∧
    parseDate (pys "2024-01-15") = some ⟨2024, 1, 15⟩ ∧
    parseDate (pys "2024-01-25") = some ⟨2024, 1, 25⟩ ∧
    ((∀ entry, processPeriodCampaign nullApi (pys "2024-01-15")
          (pys "2024-01-25") periodCampaignA = some (some entry) →
        entry.fetchStart = dmax ⟨2024, 1, 10⟩ ⟨2024, 1, 15⟩ ∧
        entry.fetchEnd = dmin ⟨2024, 1, 20⟩ ⟨2024, 1, 25⟩)
    ∧ (processPeriodCampaign nullApi (pys "2024-01-15")
          (pys "2024-01-25") periodCampaignA = some none ↔
        dateLt (dmin ⟨2024, 1, 20⟩ ⟨2024, 1, 25⟩)
          (dmax ⟨2024, 1, 10⟩ ⟨2024, 1, 15⟩) = true)
    ∧ (dateLt (dmin ⟨2024, 1, 20⟩ ⟨2024, 1, 25⟩)
          (dmax ⟨2024, 1, 10⟩ ⟨2024, 1, 15⟩) = false →
        ∃ entry, processPeriodCampaign nullApi (pys "2024-01-15")
            (pys "2024-01-25") periodCampaignA = some (some entry) ∧
          entry.fetchStart = dmax ⟨2024, 1, 10⟩ ⟨2024, 1, 15⟩ ∧
          entry.fetchEnd = dmin ⟨2024, 1, 20⟩ ⟨2024, 1, 25⟩)
    ∧ ((processPeriodCampaign nullApi
          (pys "2024-01-15") (pys "2024-01-25") periodCampaignA).map
        (Option.map (fun e => (e.fetchStart, e.fetchEnd))) =
          some (some (⟨2024, 1, 15⟩, ⟨2024, 1, 20⟩)))
    ∧ (processPeriodCampaign nullApi
          (pys "2024-01-10") (pys "2024-01-20") periodCampaignB
        = some none)) :=
  ⟨rfl, rfl, rfl, rfl,
    period_mode_window nullApi (pys "2024-01-15") (pys "2024-01-25")
      periodCampaignA ⟨2024, 1, 10⟩ ⟨2024, 1, 20⟩ ⟨2024, 1, 15⟩
      ⟨2024, 1, 25⟩ rfl rfl rfl rfl⟩

theorem processDailyCampaign_skip (api : GA4Api) (rd : Date)
    (c : Campaign) (sd ed : Date)
    (h1 : parseDate c.start_date = some sd)
    (h2 : parseDate c.end_date = some ed)
    (hw : (dateLe sd rd && dateLe rd ed) = false) :
    processDailyCampaign api rd c = some none := by
  unfold processDailyCampaign
  rw [h1, h2]
  simp only [Option.bind_eq_bind, Option.some_bind]
  rw [if_neg (by simp [hw])]
  rfl

theorem mapM_all_skipped {α β : Type} (f : α → Option (Option β))
    (l : List α) (h : ∀ a ∈ l, f a = some none) :
    ∃ es, l.mapM f = some es ∧ es.filterMap id = [] := by
  induction l with
  | nil => exact ⟨[], rfl, rfl⟩
  | cons a t ih =>
    obtain ⟨es, hes, hfm⟩ := ih (fun x hx => h x (List.mem_cons_of_mem a hx))
    refine ⟨none :: es, ?_, ?_⟩
    · rw [List.mapM_cons, h a (List.mem_cons_self a t), hes]
      rfl
    · simpa using hfm

/-- C5: in daily mode a campaign is fetched and aggregated exactly
when its window contains the resolved report date (which defaults to
yesterday); campaigns outside the window are skipped, and a date
outside every campaign window yields an empty report list without an
error. -/
theorem daily_mode_window (api : GA4Api) (today rd : Date)
    (dateArg : Option PyStr) (c : Campaign) (sd ed : Date)
    (h1 : parseDate c.start_date = some sd)
    (h2 : parseDate c.end_date = some ed)
    (hrd : resolveReportDate today dateArg = some rd) :
    ((∃ e, processDailyCampaign api rd c = some (some e) ∧
        e.report_date = rd) ↔ (dateLe sd rd && dateLe rd ed) = true)
    ∧ (processDailyCampaign api rd c = some none ↔
        (dateLe sd rd && dateLe rd ed) = false)
    ∧ resolveReportDate today none = some (predDate today)
    ∧ (∀ campaigns : List Campaign,
        (∀ c2 ∈ campaigns, ∃ sd2 ed2,
          parseDate c2.start_date = some sd2 ∧
          parseDate c2.end_date = some ed2 ∧
          (dateLe sd2 rd && dateLe rd ed2) = false) →
        generate_daily_report api today dateArg campaigns = some []) := by
  refine ⟨?_, ?_, rfl, ?_⟩
  · constructor
    · intro ⟨e, he, _⟩
      by_contra hw
      rw [Bool.not_eq_true] at hw
      rw [processDailyCampaign_skip api rd c sd ed h1 h2 hw] at he
      cases he
    · intro hw
      unfold processDailyCampaign
      rw [h1, h2]
      simp only [Option.bind_eq_bind, Option.some_bind]
      rw [if_pos hw]
      obtain ⟨m, hm⟩ := calculate_metrics_isSome
        (fetch_campaign_data (api (reportGenerateCampaignId c) rd rd)) c
      rw [hm]
      exact ⟨_, rfl, rfl⟩
  · constructor
    · intro hskip
      by_contra hw
      rw [Bool.not_eq_false] at hw
      unfold processDailyCampaign at hskip
      rw [h1, h2] at hskip
      simp only [Option.bind_eq_bind, Option.some_bind] at hskip
      rw [if_pos hw] at hskip
      obtain ⟨m, hm⟩ := calculate_metrics_isSome
        (fetch_campaign_data (api (reportGenerateCampaignId c) rd rd)) c
      rw [hm] at hskip
      cases hskip
    · exact processDailyCampaign_skip api rd c sd ed h1 h2
  · intro campaigns hall
    unfold generate_daily_report
    rw [hrd]
    simp only [Option.bind_eq_bind, Option.some_bind]
    obtain ⟨es, hes, hfm⟩ := mapM_all_skipped
      (processDailyCampaign api rd) campaigns
      (fun c2 hc2 => by
        obtain ⟨sd2, ed2, hp1, hp2, hw⟩ := hall c2 hc2
        exact processDailyCampaign_skip api rd c2 sd2 ed2 hp1 hp2 hw)
    rw [hes]
    simp [hfm]

/-- Witness for C5 at a concrete campaign and report date. -/
theorem daily_mode_window_witness :
    parseDate periodCampaignA.start_date = some ⟨2024, 1, 10⟩ ∧
    parseDate periodCampaignA.end_date = some ⟨2024, 1, 20⟩ ∧
    resolveReportDate ⟨2024, 1, 16⟩ (some (pys "2024-01-15")) =
      some ⟨2024, 1, 15⟩ ∧
    (((∃ e, processDailyCampaign nullApi ⟨2024, 1, 15⟩ periodCampaignA =
          some (some e) ∧ e.report_date = ⟨2024, 1, 15⟩) ↔
        (dateLe ⟨2024, 1, 10⟩ ⟨2024, 1, 15⟩ &&
          dateLe ⟨2024, 1, 15⟩ ⟨2024, 1, 20⟩) = true)
    ∧ (processDailyCampaign nullApi ⟨2024, 1, 15⟩ periodCampaignA =
          some none ↔
        (dateLe ⟨2024, 1, 10⟩ ⟨2024, 1, 15⟩ &&
          dateLe ⟨2024, 1, 15⟩ ⟨2024, 1, 20⟩) = false)
    ∧ resolveReportDate ⟨2024, 1, 16⟩ none =
        some (predDate ⟨2024, 1, 16⟩)
    ∧ (∀ campaigns : List Campaign,
        (∀ c2 ∈ campaigns, ∃ sd2 ed2,
          parseDate c2.start_date = some sd2 ∧
          parseDate c2.end_date = some ed2 ∧
          (dateLe sd2 ⟨2024, 1, 15⟩ &&
            dateLe ⟨2024, 1, 15⟩ ed2) = false) →
        generate_daily_report nullApi ⟨2024, 1, 16⟩
          (some (pys "2024-01-15")) campaigns = some [])) :=
  ⟨rfl, rfl, rfl,
    daily_mode_window nullApi ⟨2024, 1, 16⟩ ⟨2024, 1, 15⟩
      (some (pys "2024-01-15")) periodCampaignA ⟨2024, 1, 10⟩
      ⟨2024, 1, 20⟩ rfl rfl rfl⟩

/-- C8: when `parameter_name` is absent from the listed dimensions,
the call performs exactly one create of an event-scoped dimension,
and a second call with the same `parameter_name` finds it, reports
it as existing, and creates nothing: two consecutive calls are one
create followed by one no-op. -/
theorem ensure_custom_dimension_idempotent (state : List CustomDimension)
    (p dn ds dn2 ds2 : PyStr)
    (habsent : ∀ d ∈ state, d.parameter_name ≠ p) :
    ∃ nd, create_custom_dimension state p dn ds =
        (state ++ [nd], SetupAction.created nd) ∧
      nd.parameter_name = p ∧ nd.scope = DimensionScope.EVENT ∧
      create_custom_dimension (state ++ [nd]) p dn2 ds2 =
        (state ++ [nd], SetupAction.skipped p) := by
  have hfind : state.find? (fun d => d.parameter_name == p) = none := by
    rw [List.find?_eq_none]
    intro d hd
    simpa using habsent d hd
  have hstep1 : create_custom_dimension state p dn ds =
      (state ++ [⟨p, dn, ds, DimensionScope.EVENT⟩],
        SetupAction.created ⟨p, dn, ds, DimensionScope.EVENT⟩) := by
    unfold create_custom_dimension
    rw [hfind]
  refine ⟨⟨p, dn, ds, DimensionScope.EVENT⟩, hstep1, rfl, rfl, ?_⟩
  have hsome : ∃ d', (state ++ [(⟨p, dn, ds, DimensionScope.EVENT⟩ :
      CustomDimension)]).find? (fun d => d.parameter_name == p)
        = some d' := by
    rw [← Option.isSome_iff_exists, List.find?_isSome]
    exact ⟨⟨p, dn, ds, DimensionScope.EVENT⟩, by simp, by simp⟩
  obtain ⟨d', hd'⟩ := hsome
  unfold create_custom_dimension
  rw [hd']

/-- Witness for C8: starting from an empty remote dimension list. -/
theorem ensure_custom_dimension_idempotent_witness :
    (∀ d ∈ ([] : List CustomDimension),
        d.parameter_name ≠ pys "campaign_location") ∧
    ∃ nd, create_custom_dimension [] (pys "campaign_location")
          (pys "DistributionSite") (pys "flyer site") =
        ([] ++ [nd], SetupAction.created nd) ∧
      nd.parameter_name = pys "campaign_location" ∧
      nd.scope = DimensionScope.EVENT ∧
      create_custom_dimension ([] ++ [nd]) (pys "campaign_location")
          (pys "DistributionSite") (pys "flyer site") =
        ([] ++ [nd], SetupAction.skipped (pys "campaign_location")) :=
  ⟨fun d hd => absurd hd (List.not_mem_nil d),
    ensure_custom_dimension_idempotent [] (pys "campaign_location")
      (pys "DistributionSite") (pys "flyer site")
      (pys "DistributionSite") (pys "flyer site")
      (fun d hd => absurd hd (List.not_mem_nil d))⟩

/-! ## Round-trip lemmas for the percent-encoding -/

theorem char_toNat_valid (c : Char) :
    c.toNat < 0xd800 ∨ (0xdfff < c.toNat ∧ c.toNat < 0x110000) := by
  have h := c.valid
  unfold UInt32.isValidChar Nat.isValidChar at h
  exact_mod_cast h

theorem splitFirstChar_none_iff (sep : Char) (s : PyStr) :
    splitFirstChar sep s = none ↔ sep ∉ s := by
  induction s with
  | nil => simp [splitFirstChar]
  | cons c rest ih =>
    by_cases hc : c = sep
    · subst hc; simp [splitFirstChar]
    · rw [splitFirstChar, if_neg hc, Option.map_eq_none']
      rw [ih]
      constructor
      · intro hn hm
        rcases List.mem_cons.mp hm with h1 | h1
        · exact hc h1.symm
        · exact hn h1
      · intro hn hm
        exact hn (List.mem_cons_of_mem c hm)

theorem splitFirstChar_some_shape (sep : Char) :
    ∀ s x y, splitFirstChar sep s = some (x, y) →
      s = x ++ sep :: y ∧ sep ∉ x := by
  intro s
  induction s with
  | nil => intro x y h; simp [splitFirstChar] at h
  | cons c rest ih =>
    intro x y h
    by_cases hc : c = sep
    · subst hc
      simp [splitFirstChar] at h
      obtain ⟨rfl, rfl⟩ := h
      simp
    · rw [splitFirstChar, if_neg hc] at h
      cases hsr : splitFirstChar sep rest with
      | none => rw [hsr] at h; cases h
      | some p =>
        rw [hsr] at h
        simp only [Option.map_some', Option.some.injEq, Prod.mk.injEq] at h
        obtain ⟨h1, h2⟩ := h
        subst h1; subst h2
        obtain ⟨hrest, hnot⟩ := ih p.1 p.2 (by rw [hsr])
        constructor
        · rw [hrest]; rfl
        · intro hm
          rcases List.mem_cons.mp hm with h1 | h1
          · exact hc h1.symm
          · exact hnot h1

theorem splitFirstChar_append_not_mem (sep : Char) (P t : PyStr)
    (h : sep ∉ P) :
    splitFirstChar sep (P ++ t) =
      (splitFirstChar sep t).map (fun p => (P ++ p.1, p.2)) := by
  induction P with
  | nil => simp [Option.map_id']
  | cons c rest ih =>
    have hc : c ≠ sep := fun hcc => h (hcc ▸ List.mem_cons_self c rest)
    have hrest : sep ∉ rest := fun hm => h (List.mem_cons_of_mem c hm)
    show splitFirstChar sep (c :: (rest ++ t)) = _
    simp only [splitFirstChar]
    rw [if_neg hc, ih hrest]
    cases splitFirstChar sep t with
    | none => rfl
    | some p => rfl

theorem splitFirstChar_cons_self (sep : Char) (b : PyStr) :
    splitFirstChar sep (sep :: b) = some ([], b) := by
  simp [splitFirstChar]

theorem splitFirstChar_append_sep (sep : Char) (a b : PyStr)
    (h : sep ∉ a) :
    splitFirstChar sep (a ++ sep :: b) = some (a, b) := by
  rw [splitFirstChar_append_not_mem sep a _ h, splitFirstChar_cons_self]
  simp

theorem hexUpperChar_spec (n : Nat) (h : n < 16) :
    isHexDigitChar (hexUpperChar n) = true ∧
      hexVal (hexUpperChar n) = n := by
  interval_cases n <;> exact ⟨by decide, by decide⟩

theorem utf8Char_ne_nil (c : Char) : utf8Char c ≠ [] := by
  simp only [utf8Char]
  split
  · simp
  · split
    · simp
    · split <;> simp

theorem utf8Char_lt_256 (c : Char) : ∀ b ∈ utf8Char c, b < 256 := by
  have hv := char_toNat_valid c
  intro b hb
  simp only [utf8Char] at hb
  split at hb
  · simp at hb; omega
  · split at hb
    · simp at hb
      rcases hb with rfl | rfl <;> omega
    · split at hb
      · simp at hb
        rcases hb with rfl | rfl | rfl <;> omega
      · simp at hb
        rcases hb with rfl | rfl | rfl | rfl <;> omega

theorem percentRun_percentBytes (bs : List Nat) (t : PyStr)
    (h : ∀ b ∈ bs, b < 256) :
    percentRun (percentBytes bs ++ t) =
      (bs ++ (percentRun t).1, (percentRun t).2) := by
  induction bs with
  | nil => simp [percentBytes]
  | cons b rest ih =>
    have hb : b < 256 := h b (List.mem_cons_self b rest)
    have hrest : ∀ x ∈ rest, x < 256 :=
      fun x hx => h x (List.mem_cons_of_mem b hx)
    have hd : b / 16 < 16 := by omega
    have hm : b % 16 < 16 := by omega
    obtain ⟨hd1, hd2⟩ := hexUpperChar_spec (b / 16) hd
    obtain ⟨hm1, hm2⟩ := hexUpperChar_spec (b % 16) hm
    show percentRun ('%' :: hexUpperChar (b / 16) :: hexUpperChar (b % 16)
      :: (percentBytes rest ++ t)) = _
    rw [percentRun, if_pos rfl]
    rw [hd1, hm1]
    rw [if_pos (by decide : (true && true) = true)]
    rw [ih hrest, hd2, hm2]
    have hval : b / 16 * 16 + b % 16 = b := by omega
    rw [hval]
    rfl

theorem isContByte_iff (b : Nat) : isContByte b = true ↔ 128 ≤ b ∧ b ≤ 191 := by
  simp [isContByte]

theorem utf8DecodeGo_succ (fuel b : Nat) (rest : List Nat) :
    utf8DecodeGo (fuel + 1) (b :: rest) =
      (utf8Step b rest).1 ::
        utf8DecodeGo fuel (rest.drop (utf8Step b rest).2) := rfl

theorem utf8DecodeGo_fuel : ∀ (fuel fuel' : Nat) (bs : List Nat),
    bs.length ≤ fuel → bs.length ≤ fuel' →
    utf8DecodeGo fuel bs = utf8DecodeGo fuel' bs := by
  intro fuel
  induction fuel with
  | zero =>
    intro fuel' bs h h'
    have hbs : bs = [] := List.eq_nil_of_length_eq_zero (Nat.le_zero.mp h)
    subst hbs
    cases fuel' <;> rfl
  | succ f ih =>
    intro fuel' bs h h'
    cases bs with
    | nil => cases fuel' <;> rfl
    | cons b rest =>
      cases fuel' with
      | zero => simp at h'
      | succ f' =>
        rw [utf8DecodeGo_succ, utf8DecodeGo_succ]
        congr 1
        apply ih
        · have hd := List.length_drop (utf8Step b rest).2 rest
          simp only [List.length_cons] at h
          omega
        · have hd := List.length_drop (utf8Step b rest).2 rest
          simp only [List.length_cons] at h'
          omega

theorem utf8DecodeReplace_encode (c : Char) (bs : List Nat) :
    utf8DecodeReplace (utf8Char c ++ bs) = c :: utf8DecodeReplace bs := by
  have hv := char_toNat_valid c
  have hofn : Char.ofNat c.toNat = c := Char.ofNat_toNat c
  unfold utf8DecodeReplace
  unfold utf8Char
  rcases Nat.lt_or_ge c.toNat 0x80 with h1 | h1
  · rw [if_pos h1]
    show utf8DecodeGo (bs.length + 1) (c.toNat :: bs) = _
    rw [utf8DecodeGo_succ]
    have hstep : utf8Step c.toNat bs = (Char.ofNat c.toNat, 0) := by
      unfold utf8Step
      rw [if_pos h1]
    rw [hstep, hofn]
    simp
  rcases Nat.lt_or_ge c.toNat 0x800 with h2 | h2
  · rw [if_neg (by omega), if_pos h2]
    show utf8DecodeGo (bs.length + 1 + 1)
      ((192 + c.toNat / 64) :: (128 + c.toNat % 64) :: bs) = _
    rw [utf8DecodeGo_succ]
    have hstep : utf8Step (192 + c.toNat / 64) ((128 + c.toNat % 64) :: bs)
        = (Char.ofNat ((192 + c.toNat / 64 - 0xC0) * 64 +
            (128 + c.toNat % 64 - 0x80)), 1) := by
      unfold utf8Step
      rw [if_neg (by omega), if_pos (by constructor <;> omega)]
      dsimp only
      rw [if_pos (by rw [isContByte_iff]; omega)]
    rw [hstep]
    have hrec : (192 + c.toNat / 64 - 0xC0) * 64 +
        (128 + c.toNat % 64 - 0x80) = c.toNat := by omega
    rw [hrec, hofn]
    show _ :: utf8DecodeGo (bs.length + 1) (List.drop 1 _) = _
    simp only [List.drop_succ_cons, List.drop_zero]
    rw [utf8DecodeGo_fuel (bs.length + 1) bs.length bs (by omega) (by omega)]
  rcases Nat.lt_or_ge c.toNat 0x10000 with h3 | h3
  · rw [if_neg (by omega), if_neg (by omega), if_pos h3]
    show utf8DecodeGo (bs.length + 1 + 1 + 1)
      ((224 + c.toNat / 4096) :: (128 + c.toNat / 64 % 64)
        :: (128 + c.toNat % 64) :: bs) = _
    rw [utf8DecodeGo_succ]
    have hc1 : cont1Ok3 (224 + c.toNat / 4096) (128 + c.toNat / 64 % 64)
        = true := by
      unfold cont1Ok3
      split
      · next he =>
        have h0 : c.toNat / 4096 = 0 := by omega
        simp only [decide_eq_true_eq]
        omega
      · split
        · next hne he =>
          have h13 : c.toNat / 4096 = 13 := by omega
          simp only [decide_eq_true_eq]
          omega
        · rw [isContByte_iff]; omega
    have hstep : utf8Step (224 + c.toNat / 4096)
        ((128 + c.toNat / 64 % 64) :: (128 + c.toNat % 64) :: bs)
        = (Char.ofNat ((224 + c.toNat / 4096 - 0xE0) * 4096 +
            (128 + c.toNat / 64 % 64 - 0x80) * 64 +
            (128 + c.toNat % 64 - 0x80)), 2) := by
      unfold utf8Step
      rw [if_neg (by omega), if_neg (by omega),
        if_pos (by constructor <;> omega)]
      dsimp only
      rw [if_pos hc1, if_pos (by rw [isContByte_iff]; omega)]
    rw [hstep]
    have hrec : (224 + c.toNat / 4096 - 0xE0) * 4096 +
        (128 + c.toNat / 64 % 64 - 0x80) * 64 +
        (128 + c.toNat % 64 - 0x80) = c.toNat := by omega
    rw [hrec, hofn]
    show _ :: utf8DecodeGo (bs.length + 1 + 1) (List.drop 2 _) = _
    simp only [List.drop_succ_cons, List.drop_zero]
    rw [utf8DecodeGo_fuel (bs.length + 1 + 1) bs.length bs (by omega) (by omega)]
  · rw [if_neg (by omega), if_neg (by omega), if_neg (by omega)]
    have h4 : c.toNat < 0x110000 := by omega
    show utf8DecodeGo (bs.length + 1 + 1 + 1 + 1)
      ((240 + c.toNat / 262144) :: (128 + c.toNat / 4096 % 64)
        :: (128 + c.toNat / 64 % 64) :: (128 + c.toNat % 64) :: bs) = _
    rw [utf8DecodeGo_succ]
    have hc1 : cont1Ok4 (240 + c.toNat / 262144) (128 + c.toNat / 4096 % 64)
        = true := by
      unfold cont1Ok4
      split
      · next he =>
        have h0 : c.toNat / 262144 = 0 := by omega
        simp only [decide_eq_true_eq]
        omega
      · split
        · next hne he =>
          have hf : c.toNat / 262144 = 4 := by omega
          simp only [decide_eq_true_eq]
          omega
        · rw [isContByte_iff]; omega
    have hstep : utf8Step (240 + c.toNat / 262144)
        ((128 + c.toNat / 4096 % 64) :: (128 + c.toNat / 64 % 64)
          :: (128 + c.toNat % 64) :: bs)
        = (Char.ofNat ((240 + c.toNat / 262144 - 0xF0) * 262144 +
            (128 + c.toNat / 4096 % 64 - 0x80) * 4096 +
            (128 + c.toNat / 64 % 64 - 0x80) * 64 +
            (128 + c.toNat % 64 - 0x80)), 3) := by
      unfold utf8Step
      rw [if_neg (by omega), if_neg (by omega), if_neg (by omega),
        if_pos (by constructor <;> omega)]
      dsimp only
      rw [if_pos hc1, if_pos (by rw [isContByte_iff]; omega),
        if_pos (by rw [isContByte_iff]; omega)]
    rw [hstep]
    have hrec : (240 + c.toNat / 262144 - 0xF0) * 262144 +
        (128 + c.toNat / 4096 % 64 - 0x80) * 4096 +
        (128 + c.toNat / 64 % 64 - 0x80) * 64 +
        (128 + c.toNat % 64 - 0x80) = c.toNat := by omega
    rw [hrec, hofn]
    show _ :: utf8DecodeGo (bs.length + 1 + 1 + 1) (List.drop 3 _) = _
    simp only [List.drop_succ_cons, List.drop_zero]
    rw [utf8DecodeGo_fuel (bs.length + 1 + 1 + 1) bs.length bs (by omega) (by omega)]

theorem utf8DecodeReplace_utf8Str (u : PyStr) :
    utf8DecodeReplace (utf8Str u) = u := by
  induction u with
  | nil => rfl
  | cons c rest ih =>
    show utf8DecodeReplace (utf8Char c ++ utf8Str rest) = _
    rw [utf8DecodeReplace_encode, ih]

theorem hexUpperChar_mem (n : Nat) :
    hexUpperChar n ∈ (['0', '1', '2', '3', '4', '5', '6', '7',
      '8', '9', 'A', 'B', 'C', 'D', 'E', 'F'] : List Char) := by
  unfold hexUpperChar
  rcases Nat.lt_or_ge n 16 with h | h
  · interval_cases n <;> decide
  · have hd : (['0', '1', '2', '3', '4', '5', '6', '7',
        '8', '9', 'A', 'B', 'C', 'D', 'E', 'F'] : List Char).getD n '0'
        = '0' := List.getD_eq_default _ _ (by simpa using h)
    rw [hd]; decide

theorem percentBytes_shape (bs : List Nat) :
    ∀ x ∈ percentBytes bs, x = '%' ∨ ∃ n, x = hexUpperChar n := by
  intro x hx
  unfold percentBytes at hx
  rw [List.mem_flatMap] at hx
  obtain ⟨b, _, hb⟩ := hx
  simp only [List.mem_cons, List.not_mem_nil, or_false] at hb
  rcases hb with h | h | h
  · exact Or.inl h
  · exact Or.inr ⟨b / 16, h⟩
  · exact Or.inr ⟨b % 16, h⟩

theorem plusToSpace_qpm (c : Char) :
    plusToSpace (quotePlusChar c) = qpm c := by
  unfold plusToSpace quotePlusChar qpm
  by_cases hs : alwaysSafeChar c
  · rw [if_pos hs, if_pos hs]
    have hc : c ≠ '+' := by
      intro h
      rw [h] at hs
      exact absurd hs (by decide)
    simp [hc]
  · rw [if_neg hs, if_neg hs]
    by_cases hsp : c = ' '
    · rw [if_pos hsp, if_pos hsp]
      rfl
    · rw [if_neg hsp, if_neg hsp]
      apply List.map_congr_left ?_ |>.trans (List.map_id _)
      intro x hx
      have hne : x ≠ '+' := by
        rcases percentBytes_shape _ x hx with rfl | ⟨n, rfl⟩
        · decide
        · have := hexUpperChar_mem n
          intro heq
          rw [heq] at this
          simp at this
      simp [hne]

theorem plusToSpace_quote_plus (s : PyStr) :
    plusToSpace (quote_plus s) = s.flatMap qpm := by
  induction s with
  | nil => rfl
  | cons c rest ih =>
    show plusToSpace (quotePlusChar c ++ quote_plus rest) = _
    unfold plusToSpace at *
    rw [List.map_append]
    rw [show List.map _ (quotePlusChar c) = plusToSpace (quotePlusChar c)
      from rfl, plusToSpace_qpm, ih]
    rfl

theorem percentRun_qpm (s : PyStr) :
    percentRun (s.flatMap qpm) =
      ((s.takeWhile isUnsafeChar).flatMap utf8Char,
        (s.dropWhile isUnsafeChar).flatMap qpm) := by
  induction s with
  | nil => rfl
  | cons c rest ih =>
    by_cases hu : isUnsafeChar c = true
    · have hsafe : alwaysSafeChar c = false := by
        unfold isUnsafeChar at hu
        rcases Bool.and_eq_true_iff.mp hu with ⟨h1, _⟩
        simpa using h1
      have hspace : c ≠ ' ' := by
        unfold isUnsafeChar at hu
        rcases Bool.and_eq_true_iff.mp hu with ⟨_, h2⟩
        simpa using h2
      show percentRun (qpm c ++ rest.flatMap qpm) = _
      rw [show qpm c = percentBytes (utf8Char c) by
        unfold qpm; rw [if_neg (by simp [hsafe]), if_neg hspace]]
      rw [percentRun_percentBytes _ _ (utf8Char_lt_256 c), ih]
      rw [List.takeWhile_cons_of_pos hu, List.dropWhile_cons_of_pos hu]
      rfl
    · have hq : ∃ d, qpm c = [d] ∧ d ≠ '%' := by
        unfold qpm
        by_cases hs : alwaysSafeChar c
        · refine ⟨c, by rw [if_pos hs], ?_⟩
          intro h
          rw [h] at hs
          exact absurd hs (by decide)
        · have hsp : c = ' ' := by
            unfold isUnsafeChar at hu
            simp only [Bool.and_eq_true, Bool.not_eq_true'] at hu
            push_neg at hu
            have := hu (by simpa using hs)
            simpa using this
          rw [if_neg hs, if_pos hsp]
          exact ⟨' ', rfl, by decide⟩
      obtain ⟨d, hd, hdne⟩ := hq
      show percentRun (qpm c ++ rest.flatMap qpm) = _
      rw [hd]
      show percentRun (d :: rest.flatMap qpm) = _
      rw [percentRun.eq_def]
      dsimp only
      rw [if_neg hdne]
      rw [List.takeWhile_cons_of_neg (by simp [hu]),
        List.dropWhile_cons_of_neg (by simp [hu])]
      show _ = ([], qpm c ++ rest.flatMap qpm)
      rw [hd]
      rfl

theorem pyUnquoteGo_succ (fuel : Nat) (c : Char) (rest : PyStr) :
    pyUnquoteGo (fuel + 1) (c :: rest) =
      if c = '%' then
        if (percentRun (c :: rest)).1 = [] then c :: pyUnquoteGo fuel rest
        else
          utf8DecodeReplace (percentRun (c :: rest)).1 ++
            pyUnquoteGo fuel (percentRun (c :: rest)).2
      else c :: pyUnquoteGo fuel rest := rfl

theorem pyUnquoteGo_qpm : ∀ (n : Nat) (s : PyStr) (fuel : Nat),
    s.length ≤ n → (s.flatMap qpm).length ≤ fuel →
    pyUnquoteGo fuel (s.flatMap qpm) = s := by
  intro n
  induction n with
  | zero =>
    intro s fuel h _
    have hs : s = [] := List.eq_nil_of_length_eq_zero (Nat.le_zero.mp h)
    subst hs
    cases fuel <;> rfl
  | succ m ih =>
    intro s fuel hs hf
    cases s with
    | nil => cases fuel <;> rfl
    | cons c rest =>
      have hsplit := List.takeWhile_append_dropWhile (p := isUnsafeChar)
        (l := rest)
      by_cases hu : isUnsafeChar c = true
      · have hsafe : alwaysSafeChar c = false := by
          unfold isUnsafeChar at hu
          rcases Bool.and_eq_true_iff.mp hu with ⟨h1, _⟩
          simpa using h1
        have hspace : c ≠ ' ' := by
          unfold isUnsafeChar at hu
          rcases Bool.and_eq_true_iff.mp hu with ⟨_, h2⟩
          simpa using h2
        have hqpm : qpm c = percentBytes (utf8Char c) := by
          unfold qpm
          rw [if_neg (by simp [hsafe]), if_neg hspace]
        obtain ⟨b, btl, hb⟩ : ∃ b btl, utf8Char c = b :: btl := by
          cases hbc : utf8Char c with
          | nil => exact absurd hbc (utf8Char_ne_nil c)
          | cons x xs => exact ⟨x, xs, rfl⟩
        have hshape : (c :: rest).flatMap qpm =
            '%' :: (hexUpperChar (b / 16) :: hexUpperChar (b % 16) ::
              (percentBytes btl ++ rest.flatMap qpm)) := by
          show qpm c ++ rest.flatMap qpm = _
          rw [hqpm, hb]
          rfl
        have hfge : 1 ≤ fuel := by
          rw [hshape] at hf
          simp only [List.length_cons] at hf
          omega
        obtain ⟨f, rfl⟩ : ∃ f, fuel = f + 1 := ⟨fuel - 1, by omega⟩
        have hPR := percentRun_qpm (c :: rest)
        rw [List.takeWhile_cons_of_pos hu,
          List.dropWhile_cons_of_pos hu] at hPR
        rw [hshape, pyUnquoteGo_succ, if_pos rfl, ← hshape, hPR]
        have hXne : ((c :: List.takeWhile isUnsafeChar rest).flatMap
            utf8Char) ≠ [] := by
          show utf8Char c ++ _ ≠ []
          rw [hb]
          simp
        rw [if_neg (by simpa using hXne)]
        have hdec : utf8DecodeReplace
            ((c :: List.takeWhile isUnsafeChar rest).flatMap utf8Char) =
            c :: List.takeWhile isUnsafeChar rest :=
          utf8DecodeReplace_utf8Str _
        rw [hdec]
        have hlen_split : (List.takeWhile isUnsafeChar rest).length +
            (List.dropWhile isUnsafeChar rest).length = rest.length := by
          have h1 := congrArg List.length hsplit
          simp only [List.length_append] at h1
          exact h1
        have hrest_le : (List.dropWhile isUnsafeChar rest).length ≤ m := by
          simp only [List.length_cons] at hs
          omega
        have hfuel_le :
            ((List.dropWhile isUnsafeChar rest).flatMap qpm).length ≤ f := by
          have hdecomp : (rest.flatMap qpm).length =
              ((List.takeWhile isUnsafeChar rest).flatMap qpm).length +
              ((List.dropWhile isUnsafeChar rest).flatMap qpm).length := by
            conv_lhs => rw [← hsplit]
            rw [List.flatMap_append, List.length_append]
          rw [hshape] at hf
          simp only [List.length_cons, List.length_append] at hf
          omega
        rw [ih _ f hrest_le hfuel_le]
        show c :: (List.takeWhile isUnsafeChar rest ++
          List.dropWhile isUnsafeChar rest) = c :: rest
        rw [hsplit]
      · have hq : qpm c = [c] ∧ c ≠ '%' := by
          unfold qpm
          by_cases hsf : alwaysSafeChar c
          · refine ⟨by rw [if_pos hsf], ?_⟩
            intro h
            rw [h] at hsf
            exact absurd hsf (by decide)
          · have hsp : c = ' ' := by
              unfold isUnsafeChar at hu
              simp only [Bool.and_eq_true, Bool.not_eq_true'] at hu
              push_neg at hu
              have := hu (by simpa using hsf)
              simpa using this
            rw [if_neg hsf, if_pos hsp, hsp]
            exact ⟨rfl, by decide⟩
        obtain ⟨hqc, hcne⟩ := hq
        have hshape : (c :: rest).flatMap qpm = c :: rest.flatMap qpm := by
          show qpm c ++ rest.flatMap qpm = _
          rw [hqc]
          rfl
        have hfge : 1 ≤ fuel := by
          rw [hshape] at hf
          simp only [List.length_cons] at hf
          omega
        obtain ⟨f, rfl⟩ : ∃ f, fuel = f + 1 := ⟨fuel - 1, by omega⟩
        rw [hshape, pyUnquoteGo_succ, if_neg hcne]
        have hrest_le : rest.length ≤ m := by
          simp only [List.length_cons] at hs
          omega
        have hfuel_le : (rest.flatMap qpm).length ≤ f := by
          rw [hshape] at hf
          simp only [List.length_cons] at hf
          omega
        rw [ih _ f hrest_le hfuel_le]

theorem unquote_plus_quote_plus (s : PyStr) :
    unquote_plus (quote_plus s) = s := by
  unfold unquote_plus pyUnquote
  rw [plusToSpace_quote_plus]
  exact pyUnquoteGo_qpm s.length s _ (le_refl _) (le_refl _)

theorem quotePlusChar_ne_nil (c : Char) : quotePlusChar c ≠ [] := by
  unfold quotePlusChar
  split
  · simp
  · split
    · simp
    · obtain ⟨b, btl, hb⟩ : ∃ b btl, utf8Char c = b :: btl := by
        cases hbc : utf8Char c with
        | nil => exact absurd hbc (utf8Char_ne_nil c)
        | cons x xs => exact ⟨x, xs, rfl⟩
      unfold percentBytes
      rw [hb]
      simp

theorem quote_plus_eq_nil_iff (s : PyStr) : quote_plus s = [] ↔ s = [] := by
  cases s with
  | nil => simp [quote_plus]
  | cons c rest =>
    simp only [quote_plus, List.flatMap_cons]
    constructor
    · intro h1
      exact absurd (List.append_eq_nil.mp h1).1 (quotePlusChar_ne_nil c)
    · intro h
      cases h

theorem quotePlusChar_not_special (c : Char) :
    ∀ x ∈ quotePlusChar c, x ≠ '&' ∧ x ≠ '=' ∧ x ≠ '#' ∧ x ≠ '?' := by
  intro x hx
  unfold quotePlusChar at hx
  split at hx
  · next hsafe =>
    simp only [List.mem_singleton] at hx
    subst hx
    refine ⟨?_, ?_, ?_, ?_⟩ <;>
      · intro h
        rw [h] at hsafe
        exact absurd hsafe (by decide)
  · split at hx
    · simp only [List.mem_singleton] at hx
      subst hx
      decide
    · rcases percentBytes_shape _ x hx with rfl | ⟨n, rfl⟩
      · decide
      · have hm := hexUpperChar_mem n
        have hall : ∀ y ∈ (['0', '1', '2', '3', '4', '5', '6', '7',
            '8', '9', 'A', 'B', 'C', 'D', 'E', 'F'] : List Char),
            y ≠ '&' ∧ y ≠ '=' ∧ y ≠ '#' ∧ y ≠ '?' := by decide
        exact hall _ hm

theorem quote_plus_not_special (s : PyStr) :
    ∀ x ∈ quote_plus s, x ≠ '&' ∧ x ≠ '=' ∧ x ≠ '#' ∧ x ≠ '?' := by
  intro x hx
  unfold quote_plus at hx
  rw [List.mem_flatMap] at hx
  obtain ⟨c, _, hc⟩ := hx
  exact quotePlusChar_not_special c x hc

theorem splitOnChar_ne_nil (sep : Char) (s : PyStr) :
    splitOnChar sep s ≠ [] := by
  induction s with
  | nil => simp [splitOnChar]
  | cons c rest ih =>
    unfold splitOnChar
    split
    · simp
    · cases h : splitOnChar sep rest with
      | nil => exact absurd h ih
      | cons p ps => simp

theorem splitOnChar_not_mem (sep : Char) (s : PyStr) (h : sep ∉ s) :
    splitOnChar sep s = [s] := by
  induction s with
  | nil => rfl
  | cons c rest ih =>
    have hc : ¬ c = sep := fun hcc => h (hcc ▸ List.mem_cons_self c rest)
    have hrest : sep ∉ rest := fun hm => h (List.mem_cons_of_mem c hm)
    unfold splitOnChar
    rw [if_neg hc, ih hrest]

theorem splitOnChar_cons_sep (sep : Char) (b : PyStr) :
    splitOnChar sep (sep :: b) = [] :: splitOnChar sep b := by
  conv_lhs => unfold splitOnChar
  rw [if_pos rfl]

theorem splitOnChar_append_not_mem (sep : Char) (a t : PyStr)
    (h : sep ∉ a) :
    splitOnChar sep (a ++ t) =
      match splitOnChar sep t with
      | [] => [a]
      | g :: gs => (a ++ g) :: gs := by
  induction a with
  | nil =>
    simp only [List.nil_append]
    cases hg : splitOnChar sep t with
    | nil => exact absurd hg (splitOnChar_ne_nil sep t)
    | cons g gs => simp
  | cons c rest ih =>
    have hc : ¬ c = sep := fun hcc => h (hcc ▸ List.mem_cons_self c rest)
    have hrest : sep ∉ rest := fun hm => h (List.mem_cons_of_mem c hm)
    show splitOnChar sep (c :: (rest ++ t)) = _
    conv_lhs => unfold splitOnChar
    rw [if_neg hc, ih hrest]
    cases hg : splitOnChar sep t with
    | nil => exact absurd hg (splitOnChar_ne_nil sep t)
    | cons g gs => simp

theorem splitOnChar_joinChar (sep : Char) (segs : List PyStr)
    (hne : segs ≠ []) (hsep : ∀ g ∈ segs, sep ∉ g) :
    splitOnChar sep (joinChar sep segs) = segs := by
  induction segs with
  | nil => exact absurd rfl hne
  | cons s rest ih =>
    cases rest with
    | nil =>
      show splitOnChar sep s = [s]
      exact splitOnChar_not_mem sep s (hsep s (List.mem_cons_self s []))
    | cons s2 rest2 =>
      show splitOnChar sep (s ++ sep :: joinChar sep (s2 :: rest2)) = _
      rw [splitOnChar_append_not_mem sep s _
        (hsep s (List.mem_cons_self _ _)), splitOnChar_cons_sep,
        ih (by simp) (fun g hg => hsep g (List.mem_cons_of_mem s hg))]
      simp

theorem urlencode_eq_join (d : QueryDict) :
    urlencode d = joinChar '&'
      ((pairsOf d).map (fun p => encodePair p.1 p.2)) := by
  unfold urlencode pairsOf encodePair
  rw [List.map_flatMap]
  simp only [List.map_map]
  rfl

theorem encodePair_no_amp (k v : PyStr) : '&' ∉ encodePair k v := by
  intro hm
  unfold encodePair at hm
  rcases List.mem_append.mp hm with h | h
  · exact absurd rfl (quote_plus_not_special k '&' h).1
  · rcases List.mem_cons.mp h with h1 | h1
    · cases h1
    · exact absurd rfl (quote_plus_not_special v '&' h1).1

theorem encodePair_ne_nil (k v : PyStr) : encodePair k v ≠ [] := by
  intro h
  unfold encodePair at h
  have := congrArg List.length h
  simp [List.length_append] at this

theorem splitFirstChar_encodePair (k v : PyStr) :
    splitFirstChar '=' (encodePair k v) =
      some (quote_plus k, quote_plus v) := by
  unfold encodePair
  exact splitFirstChar_append_sep '=' _ _
    (fun hm => absurd rfl (quote_plus_not_special k '=' hm).2.1)

theorem perSeg_encodePair (p : PyStr × PyStr) :
    (if encodePair p.1 p.2 = [] then []
     else
       match splitFirstChar '=' (encodePair p.1 p.2) with
       | none => []
       | some (n, v) =>
         if v = [] then [] else [(unquote_plus n, unquote_plus v)]) =
      (if p.2 = [] then [] else [p]) := by
  rw [if_neg (encodePair_ne_nil p.1 p.2), splitFirstChar_encodePair]
  show (if quote_plus p.2 = [] then []
    else [(unquote_plus (quote_plus p.1), unquote_plus (quote_plus p.2))])
    = _
  by_cases hv : p.2 = []
  · rw [if_pos (by rw [hv]; rfl : quote_plus p.2 = []), if_pos hv]
  · rw [if_neg (fun hq => hv ((quote_plus_eq_nil_iff p.2).mp hq)),
      if_neg hv, unquote_plus_quote_plus, unquote_plus_quote_plus]

theorem perSegKB_encodePair (p : PyStr × PyStr) :
    (if encodePair p.1 p.2 = [] then []
     else
       match splitFirstChar '=' (encodePair p.1 p.2) with
       | none => [(unquote_plus (encodePair p.1 p.2), [])]
       | some (n, v) => [(unquote_plus n, unquote_plus v)]) = [p] := by
  rw [if_neg (encodePair_ne_nil p.1 p.2), splitFirstChar_encodePair]
  show [(unquote_plus (quote_plus p.1), unquote_plus (quote_plus p.2))] = _
  rw [unquote_plus_quote_plus, unquote_plus_quote_plus]

theorem parse_qsl_urlencode (d : QueryDict) :
    parse_qsl (urlencode d) =
      (pairsOf d).flatMap (fun p => if p.2 = [] then [] else [p]) := by
  rw [urlencode_eq_join]
  cases hps : pairsOf d with
  | nil => rfl
  | cons q qs =>
    unfold parse_qsl
    rw [splitOnChar_joinChar '&' _ (by simp)
      (by
        intro g hg
        rw [List.mem_map] at hg
        obtain ⟨p, _, rfl⟩ := hg
        exact encodePair_no_amp p.1 p.2)]
    rw [List.flatMap_map]
    generalize (q :: qs : List (PyStr × PyStr)) = l
    induction l with
    | nil => rfl
    | cons p rest ih =>
      rw [List.flatMap_cons, List.flatMap_cons, ih, perSeg_encodePair]

theorem parse_qsl_keepblank_urlencode (d : QueryDict) :
    parse_qsl_keepblank (urlencode d) = pairsOf d := by
  rw [urlencode_eq_join]
  cases hps : pairsOf d with
  | nil => rfl
  | cons q qs =>
    unfold parse_qsl_keepblank
    rw [splitOnChar_joinChar '&' _ (by simp)
      (by
        intro g hg
        rw [List.mem_map] at hg
        obtain ⟨p, _, rfl⟩ := hg
        exact encodePair_no_amp p.1 p.2)]
    rw [List.flatMap_map]
    generalize (q :: qs : List (PyStr × PyStr)) = l
    induction l with
    | nil => rfl
    | cons p rest ih =>
      rw [List.flatMap_cons, ih, perSegKB_encodePair]
      rfl

/-! ## Dictionary lemmas -/

theorem dictFind_nil (k : PyStr) : dictFind [] k = none := rfl

theorem dictFind_cons (q : PyStr × List PyStr) (rest : QueryDict)
    (k : PyStr) :
    dictFind (q :: rest) k =
      if q.1 = k then some q.2 else dictFind rest k := by
  unfold dictFind
  by_cases hq : q.1 = k
  · rw [if_pos hq, List.find?_cons_of_pos _ (by simp [hq])]
    rfl
  · rw [if_neg hq, List.find?_cons_of_neg _ (by simp [hq])]

theorem dictFind_append_same (d : QueryDict) (k v : PyStr) :
    dictFind (dictAppendValue d k v) k =
      some ((dictFind d k).getD [] ++ [v]) := by
  induction d with
  | nil =>
    show dictFind [(k, [v])] k = some [v]
    rw [dictFind_cons, if_pos rfl]
  | cons q rest ih =>
    unfold dictAppendValue
    by_cases hq : q.1 = k
    · rw [if_pos (by simp [List.any_cons, hq])]
      rw [List.map_cons]
      rw [show (if q.1 == k then (q.1, q.2 ++ [v]) else q)
          = (q.1, q.2 ++ [v]) from by simp [hq]]
      rw [dictFind_cons, if_pos hq, dictFind_cons, if_pos hq]
      rfl
    · rw [List.any_cons]
      rw [show (q.1 == k) = false from by simp [hq]]
      rw [Bool.false_or]
      rw [List.map_cons]
      rw [show (if q.1 == k then (q.1, q.2 ++ [v]) else q) = q
          from by simp [hq]]
      unfold dictAppendValue at ih
      by_cases ha : rest.any (fun p => p.1 == k)
      · rw [if_pos ha]
        rw [if_pos ha] at ih
        rw [dictFind_cons, if_neg hq, dictFind_cons, if_neg hq, ih]
      · rw [if_neg ha]
        rw [if_neg ha] at ih
        show dictFind (q :: (rest ++ [(k, [v])])) k = _
        rw [dictFind_cons, if_neg hq, dictFind_cons, if_neg hq, ih]

theorem dictFind_append_other (d : QueryDict) (k' v k : PyStr)
    (hne : k' ≠ k) :
    dictFind (dictAppendValue d k' v) k = dictFind d k := by
  induction d with
  | nil =>
    show dictFind [(k', [v])] k = none
    rw [dictFind_cons, if_neg hne]
    rfl
  | cons q rest ih =>
    unfold dictAppendValue
    unfold dictAppendValue at ih
    by_cases ha : (q :: rest).any (fun p => p.1 == k')
    · rw [if_pos ha]
      rw [List.map_cons, dictFind_cons, dictFind_cons]
      have hkey : (if q.1 == k' then (q.1, q.2 ++ [v]) else q).1 = q.1 := by
        by_cases h : q.1 = k' <;> simp [h]
      by_cases hq : q.1 = k
      · rw [if_pos (by rw [hkey]; exact hq), if_pos hq]
        have hq' : ¬ q.1 = k' := fun h => hne (h ▸ hq.symm).symm
        simp [hq']
      · rw [if_neg (by rw [hkey]; exact hq), if_neg hq]
        by_cases ha' : rest.any (fun p => p.1 == k')
        · rw [if_pos ha'] at ih
          exact ih
        · -- q matches k', rest does not; map over rest is identity
          have hmap : rest.map
              (fun p => if p.1 == k' then (p.1, p.2 ++ [v]) else p)
              = rest := by
            apply List.map_congr_left ?_ |>.trans (List.map_id _)
            intro p hp
            have : (p.1 == k') = false := by
              by_contra hc
              rw [Bool.not_eq_false] at hc
              exact ha' (List.any_eq_true.mpr ⟨p, hp, hc⟩)
            simp [this]
          rw [hmap]
    · rw [if_neg ha]
      have ha' : ¬ rest.any (fun p => p.1 == k') := by
        intro hc
        rw [List.any_eq_true] at hc
        obtain ⟨p, hp, hpk⟩ := hc
        exact ha (List.any_eq_true.mpr ⟨p, List.mem_cons_of_mem q hp, hpk⟩)
      rw [if_neg ha'] at ih
      show dictFind (q :: (rest ++ [(k', [v])])) k = _
      rw [dictFind_cons, dictFind_cons]
      by_cases hq : q.1 = k
      · rw [if_pos hq, if_pos hq]
      · rw [if_neg hq, if_neg hq]
        exact ih

theorem dictFind_set_same (d : QueryDict) (k : PyStr) (vs : List PyStr) :
    dictFind (dictSet d k vs) k = some vs := by
  induction d with
  | nil =>
    show dictFind [(k, vs)] k = some vs
    rw [dictFind_cons, if_pos rfl]
  | cons q rest ih =>
    unfold dictSet
    unfold dictSet at ih
    by_cases hq : q.1 = k
    · rw [if_pos (by simp [List.any_cons, hq])]
      rw [List.map_cons,
        show (if q.1 == k then (q.1, vs) else q) = (q.1, vs)
          from by simp [hq]]
      rw [dictFind_cons, if_pos hq]
    · rw [List.any_cons, show (q.1 == k) = false from by simp [hq],
        Bool.false_or]
      rw [List.map_cons,
        show (if q.1 == k then (q.1, vs) else q) = q from by simp [hq]]
      by_cases ha : rest.any (fun p => p.1 == k)
      · rw [if_pos ha]
        rw [if_pos ha] at ih
        rw [dictFind_cons, if_neg hq]
        exact ih
      · rw [if_neg ha]
        rw [if_neg ha] at ih
        show dictFind (q :: (rest ++ [(k, vs)])) k = _
        rw [dictFind_cons, if_neg hq]
        exact ih

theorem dictFind_set_other (d : QueryDict) (k' : PyStr)
    (vs : List PyStr) (k : PyStr) (hne : k' ≠ k) :
    dictFind (dictSet d k' vs) k = dictFind d k := by
  induction d with
  | nil =>
    show dictFind [(k', vs)] k = none
    rw [dictFind_cons, if_neg hne]
    rfl
  | cons q rest ih =>
    unfold dictSet
    unfold dictSet at ih
    by_cases ha : (q :: rest).any (fun p => p.1 == k')
    · rw [if_pos ha]
      rw [List.map_cons, dictFind_cons, dictFind_cons]
      have hkey : (if q.1 == k' then (q.1, vs) else q).1 = q.1 := by
        by_cases h : q.1 = k' <;> simp [h]
      by_cases hq : q.1 = k
      · rw [if_pos (by rw [hkey]; exact hq), if_pos hq]
        have hq' : ¬ q.1 = k' := fun h => hne (h ▸ hq.symm).symm
        simp [hq']
      · rw [if_neg (by rw [hkey]; exact hq), if_neg hq]
        by_cases ha' : rest.any (fun p => p.1 == k')
        · rw [if_pos ha'] at ih
          exact ih
        · have hmap : rest.map
              (fun p => if p.1 == k' then (p.1, vs) else p) = rest := by
            apply List.map_congr_left ?_ |>.trans (List.map_id _)
            intro p hp
            have hf : (p.1 == k') = false := by
              by_contra hc
              rw [Bool.not_eq_false] at hc
              exact ha' (List.any_eq_true.mpr ⟨p, hp, hc⟩)
            simp [hf]
          rw [hmap]
    · rw [if_neg ha]
      have ha' : ¬ rest.any (fun p => p.1 == k') := by
        intro hc
        rw [List.any_eq_true] at hc
        obtain ⟨p, hp, hpk⟩ := hc
        exact ha (List.any_eq_true.mpr ⟨p, List.mem_cons_of_mem q hp, hpk⟩)
      rw [if_neg ha'] at ih
      show dictFind (q :: (rest ++ [(k', vs)])) k = _
      rw [dictFind_cons, dictFind_cons]
      by_cases hq : q.1 = k
      · rw [if_pos hq, if_pos hq]
      · rw [if_neg hq, if_neg hq]
        exact ih

theorem dictFind_foldl_group (ps : List (PyStr × PyStr)) :
    ∀ (acc : QueryDict) (k : PyStr),
      dictFind (ps.foldl (fun d p => dictAppendValue d p.1 p.2) acc) k =
        match dictFind acc k with
        | some vs => some (vs ++
            (ps.filter (fun p => p.1 == k)).map (fun p => p.2))
        | none =>
          if (ps.filter (fun p => p.1 == k)).isEmpty then none
          else some ((ps.filter (fun p => p.1 == k)).map (fun p => p.2)) := by
  induction ps with
  | nil =>
    intro acc k
    rw [List.foldl_nil]
    cases hacc : dictFind acc k <;> simp [hacc]
  | cons p rest ih =>
    intro acc k
    rw [List.foldl_cons, ih]
    by_cases hp : p.1 = k
    · rw [show dictFind (dictAppendValue acc p.1 p.2) k
          = some ((dictFind acc k).getD [] ++ [p.2]) from by
        rw [hp, dictFind_append_same]]
      rw [List.filter_cons_of_pos (by simp [hp])]
      cases hacc : dictFind acc k with
      | some vs => simp
      | none => simp
    · rw [dictFind_append_other acc p.1 p.2 k hp]
      rw [List.filter_cons_of_neg (by simp [hp])]

theorem keysOf_map_preserving (d : QueryDict)
    (f : PyStr × List PyStr → PyStr × List PyStr)
    (hf : ∀ p, (f p).1 = p.1) : keysOf (d.map f) = keysOf d := by
  unfold keysOf
  rw [List.map_map]
  exact List.map_congr_left (fun p _ => hf p)

theorem keysOf_dictAppendValue (d : QueryDict) (k v : PyStr)
    (h : (keysOf d).Nodup) : (keysOf (dictAppendValue d k v)).Nodup := by
  unfold dictAppendValue
  by_cases ha : d.any (fun p => p.1 == k)
  · rw [if_pos ha]
    rw [keysOf_map_preserving _ _
      (fun p => by by_cases hp : p.1 = k <;> simp [hp])]
    exact h
  · rw [if_neg ha]
    have hk : k ∉ keysOf d := by
      intro hm
      unfold keysOf at hm
      rw [List.mem_map] at hm
      obtain ⟨p, hp, hpk⟩ := hm
      exact ha (List.any_eq_true.mpr ⟨p, hp, by simp [hpk]⟩)
    unfold keysOf
    rw [List.map_append]
    simp only [List.map_cons, List.map_nil]
    rw [List.nodup_append]
    exact ⟨h, List.nodup_singleton k,
      fun a ha hmem => hk (by rwa [show a = k from by simpa using hmem] at ha)⟩

theorem keysOf_dictSet (d : QueryDict) (k : PyStr) (vs : List PyStr)
    (h : (keysOf d).Nodup) : (keysOf (dictSet d k vs)).Nodup := by
  unfold dictSet
  by_cases ha : d.any (fun p => p.1 == k)
  · rw [if_pos ha]
    rw [keysOf_map_preserving _ _
      (fun p => by by_cases hp : p.1 = k <;> simp [hp])]
    exact h
  · rw [if_neg ha]
    have hk : k ∉ keysOf d := by
      intro hm
      unfold keysOf at hm
      rw [List.mem_map] at hm
      obtain ⟨p, hp, hpk⟩ := hm
      exact ha (List.any_eq_true.mpr ⟨p, hp, by simp [hpk]⟩)
    unfold keysOf
    rw [List.map_append]
    simp only [List.map_cons, List.map_nil]
    rw [List.nodup_append]
    exact ⟨h, List.nodup_singleton k,
      fun a ha hmem => hk (by rwa [show a = k from by simpa using hmem] at ha)⟩

theorem keysOf_parse_qs (qs : PyStr) : (keysOf (parse_qs qs)).Nodup := by
  unfold parse_qs
  generalize parse_qsl qs = ps
  have hgen : ∀ (acc : QueryDict), (keysOf acc).Nodup →
      (keysOf (ps.foldl (fun d p => dictAppendValue d p.1 p.2) acc)).Nodup := by
    induction ps with
    | nil => intro acc h; exact h
    | cons p rest ih =>
      intro acc h
      rw [List.foldl_cons]
      exact ih _ (keysOf_dictAppendValue acc p.1 p.2 h)
  exact hgen [] List.nodup_nil

theorem map_const_key_filter (k0 : PyStr) (l : List PyStr) (k : PyStr) :
    (l.map (fun v => (k0, v))).filter (fun p => p.1 == k) =
      if k0 = k then l.map (fun v => (k0, v)) else [] := by
  induction l with
  | nil => simp
  | cons v rest ih =>
    rw [List.map_cons]
    by_cases hk : k0 = k
    · rw [List.filter_cons_of_pos (by simp [hk]), ih, if_pos hk, if_pos hk]
    · rw [List.filter_cons_of_neg (by simp [hk]), ih, if_neg hk, if_neg hk]

theorem dictFind_eq_none_of_not_mem_keys (d : QueryDict) (k : PyStr)
    (h : k ∉ keysOf d) : dictFind d k = none := by
  unfold dictFind
  rw [Option.map_eq_none', List.find?_eq_none]
  intro e he
  simp only [beq_iff_eq]
  intro heq
  exact h (heq ▸ List.mem_map.mpr ⟨e, he, rfl⟩)

theorem filterKey_pairsOf_none (d : QueryDict) (k : PyStr)
    (hf : dictFind d k = none) :
    (pairsOf d).filter (fun p => p.1 == k) = [] := by
  rw [List.filter_eq_nil_iff]
  intro p hp
  unfold pairsOf at hp
  rw [List.mem_flatMap] at hp
  obtain ⟨e, he, hpe⟩ := hp
  rw [List.mem_map] at hpe
  obtain ⟨v, _, rfl⟩ := hpe
  unfold dictFind at hf
  rw [Option.map_eq_none', List.find?_eq_none] at hf
  simpa using hf e he

theorem filterKey_pairsOf (d : QueryDict) (hnd : (keysOf d).Nodup)
    (k : PyStr) (vs : List PyStr) (hf : dictFind d k = some vs) :
    (pairsOf d).filter (fun p => p.1 == k) = vs.map (fun v => (k, v)) := by
  induction d with
  | nil => cases hf
  | cons q rest ih =>
    rw [dictFind_cons] at hf
    have hpairs : pairsOf (q :: rest) =
        q.2.map (fun v => (q.1, v)) ++ pairsOf rest := by
      unfold pairsOf
      rw [List.flatMap_cons]
    rw [hpairs, List.filter_append, map_const_key_filter]
    have hndk : (keysOf rest).Nodup := by
      unfold keysOf at hnd ⊢
      rw [List.map_cons] at hnd
      exact hnd.of_cons
    by_cases hq : q.1 = k
    · rw [if_pos hq] at hf
      obtain rfl : q.2 = vs := Option.some.inj hf
      rw [if_pos hq]
      have hknotin : k ∉ keysOf rest := by
        unfold keysOf at hnd
        rw [List.map_cons] at hnd
        rw [← hq]
        exact (List.nodup_cons.mp hnd).1
      rw [filterKey_pairsOf_none rest k
        (dictFind_eq_none_of_not_mem_keys rest k hknotin)]
      rw [List.append_nil, hq]
    · rw [if_neg hq] at hf
      rw [if_neg hq, List.nil_append]
      exact ih hndk hf

theorem utf8DecodeReplace_ne_nil (bs : List Nat) (h : bs ≠ []) :
    utf8DecodeReplace bs ≠ [] := by
  cases bs with
  | nil => exact absurd rfl h
  | cons b rest =>
    unfold utf8DecodeReplace
    rw [List.length_cons, utf8DecodeGo_succ]
    simp

theorem unquote_plus_ne_nil (s : PyStr) (h : s ≠ []) :
    unquote_plus s ≠ [] := by
  unfold unquote_plus pyUnquote
  cases hm : plusToSpace s with
  | nil =>
    exfalso
    apply h
    cases s with
    | nil => rfl
    | cons c rest => cases hm
  | cons c rest =>
    rw [List.length_cons, pyUnquoteGo_succ]
    by_cases hc : c = '%'
    · rw [if_pos hc]
      by_cases hp : (percentRun (c :: rest)).1 = []
      · rw [if_pos hp]
        simp
      · rw [if_neg hp]
        intro habs
        exact utf8DecodeReplace_ne_nil _ hp (List.append_eq_nil.mp habs).1
    · rw [if_neg hc]
      simp

theorem parse_qsl_values_ne_nil (qs : PyStr) :
    ∀ p ∈ parse_qsl qs, p.2 ≠ [] := by
  intro p hp
  unfold parse_qsl at hp
  rw [List.mem_flatMap] at hp
  obtain ⟨seg, _, hseg⟩ := hp
  by_cases hnil : seg = []
  · rw [if_pos hnil] at hseg
    cases hseg
  · rw [if_neg hnil] at hseg
    cases hsp : splitFirstChar '=' seg with
    | none =>
      rw [hsp] at hseg
      cases hseg
    | some nv =>
      rw [hsp] at hseg
      obtain ⟨n, v⟩ := nv
      dsimp only at hseg
      by_cases hv : v = []
      · rw [if_pos hv] at hseg
        cases hseg
      · rw [if_neg hv] at hseg
        rw [List.mem_singleton] at hseg
        rw [hseg]
        exact unquote_plus_ne_nil v hv

theorem dictAppendValue_values (d : QueryDict) (k v : PyStr)
    (hd : ∀ e ∈ d, e.2 ≠ [] ∧ ∀ x ∈ e.2, x ≠ []) (hv : v ≠ []) :
    ∀ e ∈ dictAppendValue d k v, e.2 ≠ [] ∧ ∀ x ∈ e.2, x ≠ [] := by
  intro e he
  unfold dictAppendValue at he
  by_cases ha : d.any (fun p => p.1 == k)
  · rw [if_pos ha] at he
    rw [List.mem_map] at he
    obtain ⟨e', he', heq⟩ := he
    obtain ⟨h1, h2⟩ := hd e' he'
    by_cases hk : e'.1 = k
    · rw [show (if e'.1 == k then (e'.1, e'.2 ++ [v]) else e')
          = (e'.1, e'.2 ++ [v]) from by simp [hk]] at heq
      subst heq
      refine ⟨by simp, ?_⟩
      intro x hx
      rcases List.mem_append.mp hx with hx1 | hx1
      · exact h2 x hx1
      · rw [List.mem_singleton] at hx1
        rw [hx1]
        exact hv
    · rw [show (if e'.1 == k then (e'.1, e'.2 ++ [v]) else e') = e'
          from by simp [hk]] at heq
      subst heq
      exact ⟨h1, h2⟩
  · rw [if_neg ha] at he
    rcases List.mem_append.mp he with h1 | h1
    · exact hd e h1
    · rw [List.mem_singleton] at h1
      subst h1
      refine ⟨by simp, ?_⟩
      intro x hx
      rw [List.mem_singleton] at hx
      rw [hx]
      exact hv

theorem parse_qs_values (qs : PyStr) :
    ∀ e ∈ parse_qs qs, e.2 ≠ [] ∧ ∀ x ∈ e.2, x ≠ [] := by
  unfold parse_qs
  have hps := parse_qsl_values_ne_nil qs
  generalize hgen : parse_qsl qs = ps at hps
  clear hgen
  have hrec : ∀ (ps : List (PyStr × PyStr)), (∀ p ∈ ps, p.2 ≠ []) →
      ∀ (acc : QueryDict), (∀ e ∈ acc, e.2 ≠ [] ∧ ∀ x ∈ e.2, x ≠ []) →
      ∀ e ∈ ps.foldl (fun d p => dictAppendValue d p.1 p.2) acc,
        e.2 ≠ [] ∧ ∀ x ∈ e.2, x ≠ [] := by
    intro ps
    induction ps with
    | nil => intro _ acc hacc e he; exact hacc e he
    | cons p rest ih =>
      intro hv acc hacc e he
      rw [List.foldl_cons] at he
      exact ih (fun x hx => hv x (List.mem_cons_of_mem p hx)) _
        (dictAppendValue_values acc p.1 p.2 hacc
          (hv p (List.mem_cons_self p rest))) e he
  exact hrec ps hps [] (fun e he => absurd he (List.not_mem_nil e))

theorem flatMap_dropBlank_filter (l : List (PyStr × PyStr)) (k : PyStr) :
    (l.flatMap (fun p => if p.2 = [] then [] else [p])).filter
        (fun p => p.1 == k) =
      (l.filter (fun p => p.1 == k)).flatMap
        (fun p => if p.2 = [] then [] else [p]) := by
  induction l with
  | nil => rfl
  | cons p rest ih =>
    rw [List.flatMap_cons, List.filter_append, ih]
    by_cases hk : p.1 = k
    · rw [List.filter_cons_of_pos (by simp [hk]), List.flatMap_cons]
      by_cases hv : p.2 = []
      · rw [if_pos hv]
        rfl
      · rw [if_neg hv]
        rw [List.filter_cons_of_pos (by simp [hk])]
        rfl
    · rw [List.filter_cons_of_neg (by simp [hk])]
      by_cases hv : p.2 = []
      · rw [if_pos hv]
        rfl
      · rw [if_neg hv, List.filter_cons_of_neg (by simp [hk])]
        rfl

theorem flatMap_dropBlank_id (vs : List PyStr) (k : PyStr)
    (hvs : ∀ v ∈ vs, v ≠ []) :
    (vs.map (fun v => (k, v))).flatMap
        (fun p => if p.2 = [] then [] else [p]) =
      vs.map (fun v => (k, v)) := by
  induction vs with
  | nil => rfl
  | cons v rest ih =>
    rw [List.map_cons, List.flatMap_cons,
      if_neg (hvs v (List.mem_cons_self v rest)),
      ih (fun x hx => hvs x (List.mem_cons_of_mem v hx))]
    rfl

theorem parse_qs_urlencode_lookup (d : QueryDict)
    (hnd : (keysOf d).Nodup) (k : PyStr) (vs : List PyStr)
    (hf : dictFind d k = some vs) (hvs : ∀ v ∈ vs, v ≠ [])
    (hne : vs ≠ []) :
    dictFind (parse_qs (urlencode d)) k = some vs := by
  unfold parse_qs
  rw [dictFind_foldl_group _ [] k, dictFind_nil]
  dsimp only
  rw [parse_qsl_urlencode, flatMap_dropBlank_filter,
    filterKey_pairsOf d hnd k vs hf, flatMap_dropBlank_id vs k hvs]
  have hne' : (vs.map (fun v => (k, v))).isEmpty = false := by
    cases vs with
    | nil => exact absurd rfl hne
    | cons v rest => rfl
  rw [hne']
  simp only [Bool.false_eq_true, if_false, List.map_map]
  congr 1
  exact (List.map_congr_left (fun v _ => rfl)).trans (List.map_id vs)

theorem asciiLower_scheme_ok (y : Char) (h : isSchemeChar y = true) :
    asciiLower y ≠ '?' ∧ asciiLower y ≠ '#' := by
  unfold asciiLower
  by_cases hr : 65 ≤ y.toNat ∧ y.toNat ≤ 90
  · rw [if_pos hr]
    have hv : (y.toNat + 32).isValidChar := Or.inl (by omega)
    refine ⟨?_, ?_⟩
    · intro he
      have ht := congrArg Char.toNat he
      unfold Char.ofNat at ht
      rw [dif_pos hv, dif_pos (by decide : Nat.isValidChar 63)] at ht
      have ht2 : y.toNat + 32 = 63 := ht
      omega
    · intro he
      have ht := congrArg Char.toNat he
      unfold Char.ofNat at ht
      rw [dif_pos hv, dif_pos (by decide : Nat.isValidChar 35)] at ht
      have ht2 : y.toNat + 32 = 35 := ht
      omega
  · rw [if_neg hr]
    constructor <;>
      · intro he
        rw [he] at h
        exact absurd h (by decide)

theorem splitScheme_fst_noQF (url : PyStr) : noQF (splitScheme url).1 := by
  unfold splitScheme
  cases hsp : splitFirstChar ':' url with
  | none => intro x hx; cases hx
  | some p =>
    obtain ⟨before, after⟩ := p
    dsimp only
    cases hb : before with
    | nil => intro x hx; cases hx
    | cons c tl =>
      dsimp only
      by_cases hc : (c.isAlpha && (c :: tl).all isSchemeChar) = true
      · rw [if_pos hc]
        intro x hx
        dsimp only at hx
        rw [List.mem_map] at hx
        obtain ⟨y, hy, rfl⟩ := hx
        have hall := (Bool.and_eq_true_iff.mp hc).2
        rw [List.all_eq_true] at hall
        exact asciiLower_scheme_ok y (hall y hy)
      · rw [if_neg hc]
        intro x hx
        cases hx

theorem takeUntilDelim_fst (s : PyStr) :
    ∀ x ∈ (takeUntilDelim s).1, x ≠ '/' ∧ x ≠ '?' ∧ x ≠ '#' := by
  induction s with
  | nil => intro x hx; cases hx
  | cons c rest ih =>
    unfold takeUntilDelim
    by_cases hc : c = '/' ∨ c = '?' ∨ c = '#'
    · rw [if_pos hc]
      intro x hx
      cases hx
    · rw [if_neg hc]
      intro x hx
      push_neg at hc
      rcases List.mem_cons.mp hx with rfl | hx1
      · exact ⟨hc.1, hc.2.1, hc.2.2⟩
      · exact ih x hx1

theorem splitNetloc_fst_noQF (url : PyStr) : noQF (splitNetloc url).1 := by
  unfold splitNetloc
  by_cases h2 : url.take 2 = ['/', '/']
  · rw [if_pos h2]
    intro x hx
    have := takeUntilDelim_fst (url.drop 2) x hx
    exact ⟨this.2.1, this.2.2⟩
  · rw [if_neg h2]
    intro x hx
    cases hx

theorem splitAtFirst_not_mem (sep : Char) (s : PyStr) (h : sep ∉ s) :
    splitAtFirst sep s = (s, []) := by
  unfold splitAtFirst
  rw [(splitFirstChar_none_iff sep s).mpr h]

theorem splitAtFirst_append_sep (sep : Char) (a b : PyStr)
    (h : sep ∉ a) : splitAtFirst sep (a ++ sep :: b) = (a, b) := by
  unfold splitAtFirst
  rw [splitFirstChar_append_sep sep a b h]

theorem splitAtFirst_shape (sep : Char) (s : PyStr) :
    ((splitAtFirst sep s).1 = s ∧ (splitAtFirst sep s).2 = []) ∨
      s = (splitAtFirst sep s).1 ++ sep :: (splitAtFirst sep s).2 := by
  unfold splitAtFirst
  cases hsp : splitFirstChar sep s with
  | none => exact Or.inl ⟨rfl, rfl⟩
  | some p =>
    exact Or.inr (splitFirstChar_some_shape sep s p.1 p.2
      (by rw [hsp])).1

theorem splitAtFirst_fst_not_mem (sep : Char) (s : PyStr) :
    sep ∉ (splitAtFirst sep s).1 := by
  unfold splitAtFirst
  cases hsp : splitFirstChar sep s with
  | none => exact (splitFirstChar_none_iff sep s).mp hsp
  | some p =>
    exact (splitFirstChar_some_shape sep s p.1 p.2 (by rw [hsp])).2

theorem splitParams_shape (u : PyStr) :
    ((splitParams u).1 = u ∧ (splitParams u).2 = []) ∨
      u = (splitParams u).1 ++ ';' :: (splitParams u).2 := by
  unfold splitParams
  by_cases hsl : u.contains '/'
  · rw [if_pos hsl]
    cases hrev : splitFirstChar '/' u.reverse with
    | none => exact Or.inl ⟨rfl, rfl⟩
    | some p =>
      obtain ⟨tailRev, initRev⟩ := p
      dsimp only
      cases hsem : splitFirstChar ';' tailRev.reverse with
      | none => exact Or.inl ⟨rfl, rfl⟩
      | some q =>
        obtain ⟨a, b⟩ := q
        dsimp only
        right
        obtain ⟨hshape, _⟩ :=
          splitFirstChar_some_shape '/' u.reverse tailRev initRev
            (by rw [hrev])
        obtain ⟨hshape2, _⟩ :=
          splitFirstChar_some_shape ';' tailRev.reverse a b
            (by rw [hsem])
        have hu : u = initRev.reverse ++ '/' :: tailRev.reverse := by
          have h1 := congrArg List.reverse hshape
          rw [List.reverse_reverse] at h1
          rw [h1, List.reverse_append]
          simp
        rw [hu, hshape2]
        simp
  · rw [if_neg hsl]
    cases hsem : splitFirstChar ';' u with
    | none => exact Or.inl ⟨rfl, rfl⟩
    | some q =>
      obtain ⟨a, b⟩ := q
      dsimp only
      exact Or.inr (splitFirstChar_some_shape ';' u a b (by rw [hsem])).1

theorem splitScheme_snd_shape (P T : PyStr) (hP : noQF P) :
    ∃ P2, noQF P2 ∧
      (splitScheme (P ++ '?' :: T)).2 = P2 ++ '?' :: T := by
  by_cases hc : ':' ∈ P
  · cases hsp : splitFirstChar ':' P with
    | none =>
      exact absurd hc ((splitFirstChar_none_iff ':' P).mp hsp)
    | some p =>
      obtain ⟨x, y⟩ := p
      obtain ⟨hshape, hnx⟩ := splitFirstChar_some_shape ':' P x y
        (by rw [hsp])
      have hsplit : splitFirstChar ':' (P ++ '?' :: T) =
          some (x, y ++ '?' :: T) := by
        rw [hshape]
        rw [show (x ++ ':' :: y) ++ '?' :: T
            = x ++ ':' :: (y ++ '?' :: T) from by simp]
        exact splitFirstChar_append_sep ':' x _ hnx
      have hyQF : noQF y := by
        intro z hz
        exact hP z (by rw [hshape]; simp [hz])
      unfold splitScheme
      rw [hsplit]
      dsimp only
      cases hx : x with
      | nil => exact ⟨P, hP, rfl⟩
      | cons c tl =>
        dsimp only
        by_cases hcheck : (c.isAlpha && (c :: tl).all isSchemeChar) = true
        · rw [if_pos hcheck]
          exact ⟨y, hyQF, rfl⟩
        · rw [if_neg hcheck]
          exact ⟨P, hP, rfl⟩
  · have hsplit := splitFirstChar_append_not_mem ':' P ('?' :: T) hc
    unfold splitScheme
    rw [hsplit]
    cases hq : splitFirstChar ':' ('?' :: T) with
    | none =>
      simp only [Option.map_none']
      exact ⟨P, hP, rfl⟩
    | some p =>
      obtain ⟨a, b⟩ := p
      simp only [Option.map_some']
      obtain ⟨hshape2, hna⟩ := splitFirstChar_some_shape ':'
        ('?' :: T) a b (by rw [hq])
      have hamem : '?' ∈ a := by
        cases hha : a with
        | nil =>
          rw [hha] at hshape2
          simp at hshape2
        | cons c0 tl0 =>
          rw [hha] at hshape2
          have hc0 : c0 = '?' := by
            injection hshape2 with h1 _
            exact h1.symm
          rw [hc0]
          exact List.mem_cons_self _ _
      have hmem2 : '?' ∈ P ++ a := by simp [hamem]
      cases hpa : P ++ a with
      | nil =>
        rw [hpa] at hmem2
        cases hmem2
      | cons c tl =>
        dsimp only
        have hallf : (c :: tl).all isSchemeChar = false := by
          rw [← hpa]
          rw [Bool.eq_false_iff]
          intro hall
          rw [List.all_eq_true] at hall
          exact absurd (hall '?' hmem2) (by decide)
        rw [if_neg (by rw [hallf]; simp)]
        exact ⟨P, hP, rfl⟩

theorem takeUntilDelim_snd_shape (P T : PyStr) (hP : noQF P) :
    ∃ P2, noQF P2 ∧
      (takeUntilDelim (P ++ '?' :: T)).2 = P2 ++ '?' :: T := by
  induction P with
  | nil =>
    refine ⟨[], fun x hx => absurd hx (List.not_mem_nil x), ?_⟩
    show (takeUntilDelim ('?' :: T)).2 = '?' :: T
    unfold takeUntilDelim
    rw [if_pos (by simp)]
  | cons c rest ih =>
    have hcrest : noQF rest :=
      fun x hx => hP x (List.mem_cons_of_mem c hx)
    rw [List.cons_append]
    unfold takeUntilDelim
    by_cases hd : c = '/' ∨ c = '?' ∨ c = '#'
    · rw [if_pos hd]
      exact ⟨c :: rest, hP, rfl⟩
    · rw [if_neg hd]
      obtain ⟨P2, hP2, hres⟩ := ih hcrest
      exact ⟨P2, hP2, hres⟩

theorem splitNetloc_snd_shape (P T : PyStr) (hP : noQF P) :
    ∃ P2, noQF P2 ∧
      (splitNetloc (P ++ '?' :: T)).2 = P2 ++ '?' :: T := by
  unfold splitNetloc
  by_cases h2 : (P ++ '?' :: T).take 2 = ['/', '/']
  · rw [if_pos h2]
    cases P with
    | nil => simp at h2
    | cons c1 rest1 =>
      cases rest1 with
      | nil =>
        exfalso
        have h2' : ([c1, '?'] : PyStr) = ['/', '/'] := h2
        simp at h2'
      | cons c2 rest2 =>
        have hdrop : (c1 :: c2 :: rest2 ++ '?' :: T).drop 2
            = rest2 ++ '?' :: T := rfl
        rw [hdrop]
        exact takeUntilDelim_snd_shape rest2 T
          (fun x hx => hP x
            (List.mem_cons_of_mem c1 (List.mem_cons_of_mem c2 hx)))
  · rw [if_neg h2]
    exact ⟨P, hP, rfl⟩

theorem urlQuery_of_shape (P Q R : PyStr) (hP : noQF P) (hQ : noQF Q)
    (hR : R = [] ∨ ∃ F, R = '#' :: F) :
    urlQuery (P ++ '?' :: (Q ++ R)) = Q := by
  unfold urlQuery pyUrlparse
  dsimp only
  obtain ⟨P2, hP2, h1⟩ := splitScheme_snd_shape P (Q ++ R) hP
  rw [h1]
  obtain ⟨P3, hP3, h2⟩ := splitNetloc_snd_shape P2 (Q ++ R) hP2
  rw [h2]
  have hnoq : '?' ∉ P3 := fun hm => (hP3 _ hm).1 rfl
  rcases hR with rfl | ⟨F, rfl⟩
  · rw [List.append_nil]
    have hnoh : '#' ∉ P3 ++ '?' :: Q := by
      intro hm
      rcases List.mem_append.mp hm with h | h
      · exact (hP3 _ h).2 rfl
      · rcases List.mem_cons.mp h with h | h
        · cases h
        · exact (hQ _ h).2 rfl
    rw [splitAtFirst_not_mem '#' _ hnoh]
    rw [splitAtFirst_append_sep '?' P3 Q hnoq]
  · have hassoc : P3 ++ '?' :: (Q ++ '#' :: F)
        = (P3 ++ '?' :: Q) ++ '#' :: F := by simp
    rw [hassoc]
    have hnoh : '#' ∉ P3 ++ '?' :: Q := by
      intro hm
      rcases List.mem_append.mp hm with h | h
      · exact (hP3 _ h).2 rfl
      · rcases List.mem_cons.mp h with h | h
        · cases h
        · exact (hQ _ h).2 rfl
    rw [splitAtFirst_append_sep '#' _ F hnoh]
    rw [splitAtFirst_append_sep '?' P3 Q hnoq]

theorem noQF_nil : noQF [] := fun x hx => absurd hx (List.not_mem_nil x)

theorem noQF_append {a b : PyStr} (ha : noQF a) (hb : noQF b) :
    noQF (a ++ b) := by
  intro x hx
  rcases List.mem_append.mp hx with h | h
  · exact ha x h
  · exact hb x h

theorem noQF_cons {c : Char} {s : PyStr} (h1 : c ≠ '?') (h2 : c ≠ '#')
    (hs : noQF s) : noQF (c :: s) := by
  intro x hx
  rcases List.mem_cons.mp hx with h | h
  · exact h ▸ ⟨h1, h2⟩
  · exact hs x h

theorem noQF_of_subset {a b : PyStr} (h : ∀ x ∈ a, x ∈ b)
    (hb : noQF b) : noQF a := fun x hx => hb x (h x hx)

theorem splitAtFirst_fst_subset (sep : Char) (s : PyStr) :
    ∀ x ∈ (splitAtFirst sep s).1, x ∈ s := by
  rcases splitAtFirst_shape sep s with ⟨h1, _⟩ | h1
  · rw [h1]; exact fun x hx => hx
  · intro x hx
    rw [h1]
    exact List.mem_append.mpr (Or.inl hx)

theorem splitParams_fst_subset (u : PyStr) :
    ∀ x ∈ (splitParams u).1, x ∈ u := by
  rcases splitParams_shape u with ⟨h1, _⟩ | h1
  · rw [h1]; exact fun x hx => hx
  · intro x hx
    rw [h1]
    exact List.mem_append.mpr (Or.inl hx)

theorem splitParams_snd_subset (u : PyStr) :
    ∀ x ∈ (splitParams u).2, x ∈ u := by
  rcases splitParams_shape u with ⟨_, h2⟩ | h1
  · rw [h2]; intro x hx; cases hx
  · intro x hx
    rw [h1]
    exact List.mem_append.mpr (Or.inr (List.mem_cons.mpr (Or.inr hx)))

theorem pyUrlparse_components_noQF (url : PyStr) :
    noQF (pyUrlparse url).scheme ∧ noQF (pyUrlparse url).netloc ∧
      noQF (pyUrlparse url).path ∧ noQF (pyUrlparse url).params := by
  unfold pyUrlparse
  dsimp only
  refine ⟨splitScheme_fst_noQF url, splitNetloc_fst_noQF _, ?_, ?_⟩
  · intro x hx
    have hx4 := splitParams_fst_subset _ x hx
    have hx3 := splitAtFirst_fst_subset '?' _ x hx4
    exact ⟨fun h => splitAtFirst_fst_not_mem '?' _ (h ▸ hx4),
      fun h => splitAtFirst_fst_not_mem '#' _ (h ▸ hx3)⟩
  · intro x hx
    have hx4 := splitParams_snd_subset _ x hx
    have hx3 := splitAtFirst_fst_subset '?' _ x hx4
    exact ⟨fun h => splitAtFirst_fst_not_mem '?' _ (h ▸ hx4),
      fun h => splitAtFirst_fst_not_mem '#' _ (h ▸ hx3)⟩

theorem pyUrlunparse_query_pos (u : UrlParts) (hq : u.query ≠ []) :
    pyUrlunparse u = urlBase u ++ '?' ::
      (u.query ++ (if u.fragment ≠ [] then '#' :: u.fragment else [])) := by
  unfold pyUrlunparse urlBase
  dsimp only
  rw [if_pos hq]
  by_cases hf : u.fragment ≠ []
  · rw [if_pos hf, if_pos hf]
    simp
  · rw [if_neg hf, if_neg hf]
    simp

theorem noQF_urlBase (u : UrlParts) (hs : noQF u.scheme) (hn : noQF u.netloc)
    (hp : noQF u.path) (hpar : noQF u.params) : noQF (urlBase u) := by
  unfold urlBase
  dsimp only
  have h0 : noQF (if u.params ≠ [] then u.path ++ ';' :: u.params
      else u.path) := by
    split
    · exact noQF_append hp (noQF_cons (by decide) (by decide) hpar)
    · exact hp
  have h1 : ∀ (x : PyStr), noQF x →
      noQF (if u.netloc ≠ [] ∨ x.take 2 = ['/', '/'] then
        '/' :: '/' :: (u.netloc ++
          (if x ≠ [] ∧ x.take 1 ≠ ['/'] then '/' :: x else x))
      else x) := by
    intro x hx
    split
    · refine noQF_cons (by decide) (by decide)
        (noQF_cons (by decide) (by decide) (noQF_append hn ?_))
      split
      · exact noQF_cons (by decide) (by decide) hx
      · exact hx
    · exact hx
  have h2 : ∀ (y : PyStr), noQF y →
      noQF (if u.scheme ≠ [] then u.scheme ++ ':' :: y else y) := by
    intro y hy
    split
    · exact noQF_append hs (noQF_cons (by decide) (by decide) hy)
    · exact hy
  exact h2 _ (h1 _ h0)

theorem urlQuery_unparse (u : UrlParts) (hs : noQF u.scheme)
    (hn : noQF u.netloc) (hp : noQF u.path) (hpar : noQF u.params)
    (hq : u.query ≠ []) (hqQF : noQF u.query) :
    urlQuery (pyUrlunparse u) = u.query := by
  rw [pyUrlunparse_query_pos u hq]
  by_cases hf : u.fragment ≠ []
  · rw [if_pos hf]
    exact urlQuery_of_shape _ _ _ (noQF_urlBase u hs hn hp hpar) hqQF
      (Or.inr ⟨_, rfl⟩)
  · rw [if_neg hf]
    exact urlQuery_of_shape _ _ _ (noQF_urlBase u hs hn hp hpar) hqQF
      (Or.inl rfl)

theorem joinChar_mem (sep : Char) (l : List PyStr) :
    ∀ x ∈ joinChar sep l, x = sep ∨ ∃ g ∈ l, x ∈ g := by
  induction l with
  | nil => intro x hx; cases hx
  | cons s rest ih =>
    cases rest with
    | nil =>
      intro x hx
      simp only [joinChar] at hx
      exact Or.inr ⟨s, List.mem_cons_self s [], hx⟩
    | cons s2 rest2 =>
      intro x hx
      rw [show joinChar sep (s :: s2 :: rest2)
          = s ++ sep :: joinChar sep (s2 :: rest2) from rfl] at hx
      rcases List.mem_append.mp hx with h | h
      · exact Or.inr ⟨s, by simp, h⟩
      · rcases List.mem_cons.mp h with h | h
        · exact Or.inl h
        · rcases ih x h with h | ⟨g, hg, hxg⟩
          · exact Or.inl h
          · exact Or.inr ⟨g, List.mem_cons_of_mem s hg, hxg⟩

theorem joinChar_cons_ne_nil (sep : Char) (g : PyStr)
    (rest : List PyStr) (hg : g ≠ []) :
    joinChar sep (g :: rest) ≠ [] := by
  cases rest with
  | nil => simpa [joinChar] using hg
  | cons s2 rest2 =>
    show g ++ sep :: joinChar sep (s2 :: rest2) ≠ []
    simp

theorem mem_of_dictFind (d : QueryDict) (k : PyStr) (vs : List PyStr)
    (h : dictFind d k = some vs) : (k, vs) ∈ d := by
  unfold dictFind at h
  cases hf : d.find? (fun p => p.1 == k) with
  | none => rw [hf] at h; cases h
  | some e =>
    rw [hf] at h
    obtain rfl : e.2 = vs := Option.some.inj h
    have hm := List.mem_of_find?_eq_some hf
    have hp := List.find?_some hf
    simp only [beq_iff_eq] at hp
    rw [← hp]
    exact hm

theorem pairsOf_ne_nil (d : QueryDict) (e : PyStr × List PyStr)
    (he : e ∈ d) (hne : e.2 ≠ []) : pairsOf d ≠ [] := by
  intro h
  obtain ⟨v, hv⟩ := List.exists_mem_of_ne_nil e.2 hne
  have hmem : (e.1, v) ∈ pairsOf d :=
    List.mem_flatMap.mpr ⟨e, he, List.mem_map.mpr ⟨v, hv, rfl⟩⟩
  rw [h] at hmem
  cases hmem

theorem urlencode_ne_nil (d : QueryDict) (e : PyStr × List PyStr)
    (he : e ∈ d) (hne : e.2 ≠ []) : urlencode d ≠ [] := by
  rw [urlencode_eq_join]
  cases hps : pairsOf d with
  | nil => exact absurd hps (pairsOf_ne_nil d e he hne)
  | cons q qs =>
    rw [List.map_cons]
    exact joinChar_cons_ne_nil '&' _ _ (encodePair_ne_nil q.1 q.2)

theorem urlencode_noQF (d : QueryDict) : noQF (urlencode d) := by
  rw [urlencode_eq_join]
  intro x hx
  rcases joinChar_mem '&' _ x hx with rfl | ⟨g, hg, hxg⟩
  · exact ⟨by decide, by decide⟩
  · rw [List.mem_map] at hg
    obtain ⟨p, _, rfl⟩ := hg
    unfold encodePair at hxg
    rcases List.mem_append.mp hxg with h | h
    · have hq := quote_plus_not_special p.1 x h
      exact ⟨hq.2.2.2, hq.2.2.1⟩
    · rcases List.mem_cons.mp h with rfl | h
      · exact ⟨by decide, by decide⟩
      · have hq := quote_plus_not_special p.2 x h
        exact ⟨hq.2.2.2, hq.2.2.1⟩

theorem build_utm_url_eq (c : Campaign) :
    build_utm_url c =
      (pyUrlunparse { pyUrlparse c.target_url with
          query := urlencode (utmDict c) },
       qrGenerateCampaignId c) := by
  unfold build_utm_url utmDict
  dsimp only [List.foldl_cons, List.foldl_nil]

theorem utmDict_keys_nodup (c : Campaign) :
    (keysOf (utmDict c)).Nodup := by
  unfold utmDict
  exact keysOf_dictSet _ _ _ (keysOf_dictSet _ _ _ (keysOf_dictSet _ _ _
    (keysOf_dictSet _ _ _ (keysOf_dictSet _ _ _
      (keysOf_parse_qs _)))))

theorem utmDict_find_source (c : Campaign) :
    dictFind (utmDict c) (pys "utm_source") = some [pys "offline"] := by
  unfold utmDict
  rw [dictFind_set_other _ _ _ _ (by decide),
    dictFind_set_other _ _ _ _ (by decide),
    dictFind_set_other _ _ _ _ (by decide),
    dictFind_set_other _ _ _ _ (by decide)]
  exact dictFind_set_same _ _ _

theorem utmDict_find_medium (c : Campaign) :
    dictFind (utmDict c) (pys "utm_medium") = some [pys "print"] := by
  unfold utmDict
  rw [dictFind_set_other _ _ _ _ (by decide),
    dictFind_set_other _ _ _ _ (by decide),
    dictFind_set_other _ _ _ _ (by decide)]
  exact dictFind_set_same _ _ _

theorem utmDict_find_campaign (c : Campaign) :
    dictFind (utmDict c) (pys "utm_campaign")
      = some [qrGenerateCampaignId c] := by
  unfold utmDict
  rw [dictFind_set_other _ _ _ _ (by decide),
    dictFind_set_other _ _ _ _ (by decide)]
  exact dictFind_set_same _ _ _

theorem utmDict_find_content (c : Campaign) :
    dictFind (utmDict c) (pys "utm_content") = some [c.location] := by
  unfold utmDict
  rw [dictFind_set_other _ _ _ _ (by decide)]
  exact dictFind_set_same _ _ _

theorem utmDict_find_term (c : Campaign) :
    dictFind (utmDict c) (pys "utm_term") = some [c.name] := by
  unfold utmDict
  exact dictFind_set_same _ _ _

theorem utmDict_encode_ne_nil (c : Campaign) :
    urlencode (utmDict c) ≠ [] :=
  urlencode_ne_nil _ _ (mem_of_dictFind _ _ _ (utmDict_find_source c))
    (by decide)

theorem urlQuery_unparse_mk (sch net pa par q fr : PyStr)
    (hs : noQF sch) (hn : noQF net) (hp : noQF pa) (hpar : noQF par)
    (hq : q ≠ []) (hqQF : noQF q) :
    urlQuery (pyUrlunparse ⟨sch, net, pa, par, q, fr⟩) = q :=
  urlQuery_unparse ⟨sch, net, pa, par, q, fr⟩ hs hn hp hpar hq hqQF

theorem build_query_roundtrip (c : Campaign) :
    urlQuery (build_utm_url c).1 = urlencode (utmDict c) := by
  rw [build_utm_url_eq]
  have hcomp := pyUrlparse_components_noQF c.target_url
  exact urlQuery_unparse_mk (pyUrlparse c.target_url).scheme
    (pyUrlparse c.target_url).netloc (pyUrlparse c.target_url).path
    (pyUrlparse c.target_url).params (urlencode (utmDict c))
    (pyUrlparse c.target_url).fragment
    hcomp.1 hcomp.2.1 hcomp.2.2.1 hcomp.2.2.2
    (utmDict_encode_ne_nil c) (urlencode_noQF (utmDict c))

theorem urlQuery_eq (url : PyStr) :
    urlQuery url = (pyUrlparse url).query := rfl

/-- C2: every query parameter of the target URL whose name is not one
of the five attribution keys survives `build_utm_url` with its name
and complete value list unchanged, as read back by the code's own
query parser. -/
theorem build_utm_url_preserves_params (c : Campaign) (k : PyStr)
    (hk : k ∉ utmKeys) (vs : List PyStr)
    (hf : dictFind (parse_qs (urlQuery c.target_url)) k = some vs) :
    dictFind (parse_qs (urlQuery (build_utm_url c).1)) k = some vs := by
  rw [build_query_roundtrip]
  rw [urlQuery_eq] at hf
  have hfd : dictFind (utmDict c) k = some vs := by
    unfold utmDict
    rw [dictFind_set_other _ _ _ _
        (by intro h; exact hk (h ▸ (by decide : pys "utm_term" ∈ utmKeys))),
      dictFind_set_other _ _ _ _
        (by intro h; exact hk (h ▸ (by decide : pys "utm_content" ∈ utmKeys))),
      dictFind_set_other _ _ _ _
        (by intro h; exact hk (h ▸ (by decide : pys "utm_campaign" ∈ utmKeys))),
      dictFind_set_other _ _ _ _
        (by intro h; exact hk (h ▸ (by decide : pys "utm_medium" ∈ utmKeys))),
      dictFind_set_other _ _ _ _
        (by intro h; exact hk (h ▸ (by decide : pys "utm_source" ∈ utmKeys)))]
    exact hf
  have hv := parse_qs_values (pyUrlparse c.target_url).query (k, vs)
    (mem_of_dictFind _ _ _ hf)
  exact parse_qs_urlencode_lookup (utmDict c) (utmDict_keys_nodup c)
    k vs hfd hv.2 hv.1

/-- Instantiation of the parameter-preservation theorem on the demo
campaign: its `ref=flyer` parameter survives the rebuild unchanged. -/
theorem build_utm_url_preserves_params_witness :
    (pys "ref") ∉ utmKeys ∧
    dictFind (parse_qs (urlQuery demoCampaign.target_url)) (pys "ref")
      = some [pys "flyer"] ∧
    dictFind (parse_qs (urlQuery (build_utm_url demoCampaign).1))
      (pys "ref") = some [pys "flyer"] :=
  ⟨by decide, by decide,
    build_utm_url_preserves_params demoCampaign (pys "ref") (by decide)
      [pys "flyer"] (by decide)⟩

theorem build_filter_key (c : Campaign) (k : PyStr) (vs : List PyStr)
    (hfd : dictFind (utmDict c) k = some vs) :
    (parse_qsl_keepblank (urlQuery (build_utm_url c).1)).filter
      (fun p => p.1 == k) = vs.map (fun v => (k, v)) := by
  rw [build_query_roundtrip, parse_qsl_keepblank_urlencode]
  exact filterKey_pairsOf (utmDict c) (utmDict_keys_nodup c) k vs hfd

/-- C3: `build_utm_url` is idempotent on the five attribution keys:
both the first output URL and the URL obtained by feeding that output
back in as the target carry exactly one pair for each attribution key,
with values `offline`, `print`, the campaign token, the location and
the name — values are overwritten, never duplicated. -/
theorem build_utm_url_idempotent (c : Campaign) :
    ((parse_qsl_keepblank (urlQuery (build_utm_url c).1)).filter
        (fun p => p.1 == pys "utm_source")
      = [(pys "utm_source", pys "offline")] ∧
    (parse_qsl_keepblank (urlQuery (build_utm_url c).1)).filter
        (fun p => p.1 == pys "utm_medium")
      = [(pys "utm_medium", pys "print")] ∧
    (parse_qsl_keepblank (urlQuery (build_utm_url c).1)).filter
        (fun p => p.1 == pys "utm_campaign")
      = [(pys "utm_campaign", qrGenerateCampaignId c)] ∧
    (parse_qsl_keepblank (urlQuery (build_utm_url c).1)).filter
        (fun p => p.1 == pys "utm_content")
      = [(pys "utm_content", c.location)] ∧
    (parse_qsl_keepblank (urlQuery (build_utm_url c).1)).filter
        (fun p => p.1 == pys "utm_term")
      = [(pys "utm_term", c.name)]) ∧
    ((parse_qsl_keepblank (urlQuery (build_utm_url
          { c with target_url := (build_utm_url c).1 }).1)).filter
        (fun p => p.1 == pys "utm_source")
      = [(pys "utm_source", pys "offline")] ∧
    (parse_qsl_keepblank (urlQuery (build_utm_url
          { c with target_url := (build_utm_url c).1 }).1)).filter
        (fun p => p.1 == pys "utm_medium")
      = [(pys "utm_medium", pys "print")] ∧
    (parse_qsl_keepblank (urlQuery (build_utm_url
          { c with target_url := (build_utm_url c).1 }).1)).filter
        (fun p => p.1 == pys "utm_campaign")
      = [(pys "utm_campaign", qrGenerateCampaignId c)] ∧
    (parse_qsl_keepblank (urlQuery (build_utm_url
          { c with target_url := (build_utm_url c).1 }).1)).filter
        (fun p => p.1 == pys "utm_content")
      = [(pys "utm_content", c.location)] ∧
    (parse_qsl_keepblank (urlQuery (build_utm_url
          { c with target_url := (build_utm_url c).1 }).1)).filter
        (fun p => p.1 == pys "utm_term")
      = [(pys "utm_term", c.name)]) := by
  refine ⟨⟨?_, ?_, ?_, ?_, ?_⟩, ⟨?_, ?_, ?_, ?_, ?_⟩⟩
  · exact build_filter_key c _ _ (utmDict_find_source c)
  · exact build_filter_key c _ _ (utmDict_find_medium c)
  · exact build_filter_key c _ _ (utmDict_find_campaign c)
  · exact build_filter_key c _ _ (utmDict_find_content c)
  · exact build_filter_key c _ _ (utmDict_find_term c)
  · exact build_filter_key _ _ _
      (utmDict_find_source { c with target_url := (build_utm_url c).1 })
  · exact build_filter_key _ _ _
      (utmDict_find_medium { c with target_url := (build_utm_url c).1 })
  · exact build_filter_key _ _ _
      (utmDict_find_campaign { c with target_url := (build_utm_url c).1 })
  · exact build_filter_key _ _ _
      (utmDict_find_content { c with target_url := (build_utm_url c).1 })
  · exact build_filter_key _ _ _
      (utmDict_find_term { c with target_url := (build_utm_url c).1 })
